import Mathlib

/-!
Verification of the artisan artifact store against its specification.

This file gives a shallow embedding of the parts of the source relevant to
the claims under scrutiny:

* `src/artisan/_cbor_io.py` — the CBOR container codec: fixed-width headers
  for growable lists and RFC-8746 multidimensional arrays, the header
  parsers, the readers/writers, and the `extend` operations.
  Byte buffers are modelled as `List Nat` (each element a byte value);
  Python value trees are the mutual inductive `PyVal`, the per-element
  codec delegated to the external `cbor2` library is modelled from the
  spec (`dumpsV`/`decodeVal`), and the `dictify`/`namespacify`
  conversions wrapped around it come from `src/artisan/_namespaces.py`.
* `src/artisan/_artifacts.py` — the resolve-or-build state machine:
  `find_match`, `make_stub`, `default_builder`, `log`, `Artifact.__new__`,
  `Artifact.__setattr__`, and the `DynamicArtifact` length/iteration pair.
  The filesystem is modelled as an explicit store of directories with
  metadata; timestamps carried by events are irrelevant to every claim and
  are omitted from the event model.
* `src/artisan/_fs_index.py` — the `DirIndex` registry (`dir_indices`):
  construction, child pruning and refresh, with canonical absolute paths
  modelled as component lists (deepest component first, so that the parent
  of a path is its tail).
-/

namespace Artisan

/-! ## Big-endian byte strings (`int.to_bytes(k, 'big')` / `int.from_bytes`) -/

/-- Big-endian encoding of `n` into exactly `k` bytes, as Python's
`int.to_bytes(k, 'big')` produces (the Python call raises for `n ≥ 256^k`;
theorems carry that bound as a hypothesis). -/
def toBytesBE : Nat → Nat → List Nat
  | 0, _ => []
  | k + 1, n => toBytesBE k (n / 256) ++ [n % 256]

/-- Big-endian decoding of a byte string, as Python's
`int.from_bytes(bs, 'big')` computes it (an empty string decodes to 0). -/
def fromBytesBE (bs : List Nat) : Nat :=
  bs.foldl (fun acc b => acc * 256 + b) 0

theorem toBytesBE_length (k n : Nat) : (toBytesBE k n).length = k := by
  induction k generalizing n with
  | zero => rfl
  | succ k ih => simp [toBytesBE, ih]

theorem fromBytesBE_append_single (bs : List Nat) (b : Nat) :
    fromBytesBE (bs ++ [b]) = fromBytesBE bs * 256 + b := by
  simp [fromBytesBE, List.foldl_append]

theorem fromBytesBE_toBytesBE (k n : Nat) (h : n < 256 ^ k) :
    fromBytesBE (toBytesBE k n) = n := by
  induction k generalizing n with
  | zero =>
    simp [toBytesBE, fromBytesBE]
    omega
  | succ k ih =>
    have hdiv : n / 256 < 256 ^ k := by
      rw [Nat.div_lt_iff_lt_mul (by norm_num)]
      calc n < 256 ^ (k + 1) := h
        _ = 256 ^ k * 256 := by ring
    rw [toBytesBE, fromBytesBE_append_single, ih _ hdiv]
    omega

theorem toBytesBE_bytes_lt (k n : Nat) : ∀ b ∈ toBytesBE k n, b < 256 := by
  induction k generalizing n with
  | zero => simp [toBytesBE]
  | succ k ih =>
    intro b hb
    rw [toBytesBE] at hb
    rcases List.mem_append.mp hb with h | h
    · exact ih _ b h
    · simp at h; omega

/-! ## CBOR constants (source: `_cbor_io.py` top of file) -/

def MAJOR_TYPE_UINT : Nat := 0 * 32
def MAJOR_TYPE_BYTE_STRING : Nat := 2 * 32
def MAJOR_TYPE_ARRAY : Nat := 4 * 32
def MAJOR_TYPE_TAG : Nat := 6 * 32

def TAG_MULTIDIM_ARRAY : Nat := 40

def INFO_NEXT_BYTE : Nat := 24
def INFO_NEXT_2_BYTES : Nat := 25
def INFO_NEXT_4_BYTES : Nat := 26
def INFO_NEXT_8_BYTES : Nat := 27

/-- The `dtypes_by_tag` registry: RFC-8746 tag number to NumPy dtype
descriptor string, exactly the pairs in the source (note the absence of
tags 76 and 83, and that tags 64 and 68 both denote `u1`). -/
def dtypes_by_tag : List (Nat × String) :=
  [(64, "u1"), (65, ">u2"), (66, ">u4"), (67, ">u8"),
   (68, "u1"), (69, "<u2"), (70, "<u4"), (71, "<u8"),
   (72, "i1"), (73, ">i2"), (74, ">i4"), (75, ">i8"),
   (77, "<i2"), (78, "<i4"), (79, "<i8"),
   (80, ">f2"), (81, ">f4"), (82, ">f8"),
   (84, "<f2"), (85, "<f4"), (86, "<f8")]

/-- Lookup in `dtypes_by_tag`. -/
def dtypeOfTag (tag : Nat) : Option String :=
  (dtypes_by_tag.find? (fun e => e.1 == tag)).map (fun e => e.2)

/-- The `tags_by_dtype` inverse registry. The Python dict comprehension
iterates `dtypes_by_tag` in order and later entries overwrite earlier ones,
so the lookup returns the LAST tag mapping to the dtype. -/
def tagOfDtype (d : String) : Option Nat :=
  dtypes_by_tag.foldl
    (fun acc e => if e.2 == d then some e.1 else acc) none

/-- The dtype descriptor strings registered in `dtypes_by_tag`. -/
def registeredDtypes : List String := dtypes_by_tag.map (fun e => e.2)

/-- Bytes per element for a registered dtype (NumPy `dtype.itemsize`). -/
def itemsize (d : String) : Nat :=
  if d == "u1" || d == "i1" then 1
  else if d == ">u2" || d == "<u2" || d == ">i2" || d == "<i2"
       || d == ">f2" || d == "<f2" then 2
  else if d == ">u4" || d == "<u4" || d == ">i4" || d == "<i4"
       || d == ">f4" || d == "<f4" then 4
  else 8

/-- Product of a shape's dimensions; `np.prod` of an empty shape is 1. -/
def shapeProd (shape : List Nat) : Nat := shape.foldl (· * ·) 1

/-! ## Headers (source: `list_header`, `ndarray_header`, `data_offset`) -/

/-- The 9-byte header of a growable-list CBOR file:
array-type marker with an 8-byte big-endian length. -/
def list_header (length : Nat) : List Nat :=
  (MAJOR_TYPE_ARRAY ||| INFO_NEXT_8_BYTES) :: toBytesBE 8 length

/-- Encoding of one shape dimension inside `ndarray_header`:
a uint marker with an 8-byte big-endian value. -/
def dimEnc (n : Nat) : List Nat :=
  (MAJOR_TYPE_UINT ||| INFO_NEXT_8_BYTES) :: toBytesBE 8 n

/-- The header of a multidimensional-array CBOR file, per RFC 8746 with
8-byte shape entries and byte-string length (source `ndarray_header`). -/
def ndarray_header (shape : List Nat) (dtype : String) : List Nat :=
  [MAJOR_TYPE_TAG ||| INFO_NEXT_BYTE, TAG_MULTIDIM_ARRAY,
   MAJOR_TYPE_ARRAY ||| 2, MAJOR_TYPE_ARRAY ||| shape.length]
  ++ (shape.map dimEnc).flatten
  ++ [MAJOR_TYPE_TAG ||| INFO_NEXT_BYTE, (tagOfDtype dtype).getD 0,
      MAJOR_TYPE_BYTE_STRING ||| INFO_NEXT_8_BYTES]
  ++ toBytesBE 8 (shapeProd shape * itemsize dtype)

/-- Byte offset of an ndarray's payload in its CBOR file
(source `data_offset`). -/
def data_offset (ndim : Nat) : Nat := 15 + 9 * ndim

/-! ## Header parsing (source: `parse_token`, `fail_if`, `parse_list`,
`parse_ndarray`) -/

/-- The recoverable conditions a header parse can signal: Python
`ValueError` (wrong token) and `IndexError` (end of buffer); the reader
catches exactly these to try the next candidate interpretation. -/
inductive PErr where
  | valueError
  | indexError
deriving DecidableEq, Repr

/-- Source `parse_token`: parse the CBOR token at `buf[pos]`, returning the
next position and the token's value. `buf[pos]` out of range is Python's
`IndexError`; a wrong major type or reserved width is a `ValueError`.
Python's slice `buf[pos+1:pos+w]` silently truncates at the end of the
buffer, which `drop`/`take` reproduce. -/
def parse_token (buf : List Nat) (pos : Nat) (expectedMajorType : Nat) :
    Except PErr (Nat × Nat) :=
  match buf.get? pos with
  | none => .error .indexError
  | some b =>
    let majorType := b &&& 0xE0
    let extraInfo := b &&& 0x1F
    if majorType ≠ expectedMajorType then .error .valueError
    else if extraInfo < INFO_NEXT_BYTE then .ok (pos + 1, extraInfo)
    else if extraInfo = INFO_NEXT_BYTE then
      .ok (pos + 2, fromBytesBE ((buf.drop (pos + 1)).take 1))
    else if extraInfo = INFO_NEXT_2_BYTES then
      .ok (pos + 3, fromBytesBE ((buf.drop (pos + 1)).take 2))
    else if extraInfo = INFO_NEXT_4_BYTES then
      .ok (pos + 5, fromBytesBE ((buf.drop (pos + 1)).take 4))
    else if extraInfo = INFO_NEXT_8_BYTES then
      .ok (pos + 9, fromBytesBE ((buf.drop (pos + 1)).take 8))
    else .error .valueError

/-- Source `fail_if`: raise a `ValueError` when the condition holds. -/
def fail_if (condition : Bool) : Except PErr Unit :=
  if condition then .error .valueError else .ok ()

/-- Source `parse_list`: parse a buffer as the header of a
`PersistentList` and return the element count. -/
def parse_list (buf : List Nat) : Except PErr Nat := do
  let (pos, size) ← parse_token buf 0 MAJOR_TYPE_ARRAY
  fail_if (pos != 9)
  pure size

/-- The shape-reading loop inside `parse_ndarray`: read `k` remaining
dimensions starting at index `i` and position `pos`, checking after each
token that the position is `4 + 9 * (i + 1)`. -/
def parse_shape (buf : List Nat) : Nat → Nat → Nat →
    Except PErr (Nat × List Nat)
  | 0, _, pos => .ok (pos, [])
  | k + 1, i, pos => do
    let (pos1, d) ← parse_token buf pos MAJOR_TYPE_UINT
    fail_if (pos1 != 4 + 9 * (i + 1))
    let (pos2, ds) ← parse_shape buf k (i + 1) pos1
    pure (pos2, d :: ds)

/-- Source `parse_ndarray`: parse a buffer as the header of a
`PersistentArray` and return its shape and dtype. -/
def parse_ndarray (buf : List Nat) : Except PErr (List Nat × String) := do
  let (pos, root_tag) ← parse_token buf 0 MAJOR_TYPE_TAG
  fail_if (pos != 2 || root_tag != TAG_MULTIDIM_ARRAY)
  let (pos, root_len) ← parse_token buf pos MAJOR_TYPE_ARRAY
  fail_if (pos != 3 || root_len != 2)
  let (pos, ndim) ← parse_token buf pos MAJOR_TYPE_ARRAY
  fail_if (pos != 4 || ndim > 12)
  let (pos, shape) ← parse_shape buf ndim 0 pos
  let (pos, dtype_tag) ← parse_token buf pos MAJOR_TYPE_TAG
  fail_if (pos != 6 + 9 * ndim || (dtypeOfTag dtype_tag).isNone)
  let dtype := (dtypeOfTag dtype_tag).getD ""
  let (pos, nbytes) ← parse_token buf pos MAJOR_TYPE_BYTE_STRING
  fail_if (pos != 15 + 9 * ndim || nbytes != shapeProd shape * itemsize dtype)
  pure (shape, dtype)

/-! ## Python value trees (source: `_namespaces.py`)

`PyVal` is the tree of values the store's element codec handles, as the
spec enumerates them: null, booleans, arbitrary-precision integers,
floats (carried as their IEEE-754 double bit pattern), text strings
(carried as their UTF-8 bytes), byte strings, sequences, string-keyed
maps — plus namespace-like objects (objects with a `__dict__`), which the
store converts to maps before encoding (`dictify`) and which decoded maps
become after decoding (`namespacify`). Keys are UTF-8 byte strings. -/

mutual
inductive PyVal where
  | pnull
  | pbool (b : Bool)
  | pint (n : Int)
  | pfloat (bits : Nat)
  | pstr (bs : List Nat)
  | pbytes (bs : List Nat)
  | plist (xs : PyList)
  | pdict (kvs : PyKVs)
  | pnamespace (kvs : PyKVs)
inductive PyList where
  | nil
  | cons (x : PyVal) (xs : PyList)
inductive PyKVs where
  | nil
  | cons (k : List Nat) (v : PyVal) (kvs : PyKVs)
end

/-- Number of elements of a value list (Python `len`). -/
def lenL : PyList → Nat
  | .nil => 0
  | .cons _ xs => lenL xs + 1

/-- Number of key-value pairs of a map (Python `len`). -/
def lenKV : PyKVs → Nat
  | .nil => 0
  | .cons _ _ kvs => lenKV kvs + 1

/-- Concatenation of value lists (Python list concatenation). -/
def pyAppend : PyList → PyList → PyList
  | .nil, ys => ys
  | .cons x xs, ys => .cons x (pyAppend xs ys)

/-! Source `dictify` (`_namespaces.py`): deeply convert namespaces in an
object to dictionaries. Scalars are returned unchanged, sequences and
mappings are mapped over (a mapping keeps all of its keys), and a
namespace-like object becomes a dictionary of its public attributes —
those whose names do not start with an underscore (byte 95). `dictifyNS`
fuses the source's dict-comprehension filter (`if not k.startswith('_')`)
with the recursive conversion of the kept values. -/

mutual
def dictifyV : PyVal → PyVal
  | .pnull => .pnull
  | .pbool b => .pbool b
  | .pint n => .pint n
  | .pfloat bits => .pfloat bits
  | .pstr bs => .pstr bs
  | .pbytes bs => .pbytes bs
  | .plist xs => .plist (dictifyL xs)
  | .pdict kvs => .pdict (dictifyKV kvs)
  | .pnamespace kvs => .pdict (dictifyNS kvs)
def dictifyL : PyList → PyList
  | .nil => .nil
  | .cons x xs => .cons (dictifyV x) (dictifyL xs)
def dictifyKV : PyKVs → PyKVs
  | .nil => .nil
  | .cons k v kvs => .cons k (dictifyV v) (dictifyKV kvs)
def dictifyNS : PyKVs → PyKVs
  | .nil => .nil
  | .cons k v kvs =>
    if k.head? == some 95 then dictifyNS kvs
    else .cons k (dictifyV v) (dictifyNS kvs)
end

/-! Source `namespacify` (`_namespaces.py`): deeply convert mappings in
an object to namespaces. Scalars (strings and bytes included — they are
matched before the sequence case) are unchanged, sequences are mapped
over, mappings become namespaces with namespacified values, and anything
else — a namespace included — is returned unchanged. -/

mutual
def namespacifyV : PyVal → PyVal
  | .pnull => .pnull
  | .pbool b => .pbool b
  | .pint n => .pint n
  | .pfloat bits => .pfloat bits
  | .pstr bs => .pstr bs
  | .pbytes bs => .pbytes bs
  | .plist xs => .plist (namespacifyL xs)
  | .pdict kvs => .pnamespace (namespacifyKV kvs)
  | .pnamespace kvs => .pnamespace kvs
def namespacifyL : PyList → PyList
  | .nil => .nil
  | .cons x xs => .cons (namespacifyV x) (namespacifyL xs)
def namespacifyKV : PyKVs → PyKVs
  | .nil => .nil
  | .cons k v kvs => .cons k (namespacifyV v) (namespacifyKV kvs)
end

/-- What one value round-trips to through the store: it is encoded after
`dictify` and decoded through `namespacify`. -/
def canonV (v : PyVal) : PyVal := namespacifyV (dictifyV v)

/-- Element-wise round-trip canonicalization of a list. -/
def canonL (xs : PyList) : PyList := namespacifyL (dictifyL xs)

/-- Modelled from the spec: minimal big-endian byte string of a natural
number, as `cbor2` emits in the payload of a bignum (tags 2 and 3) for
integers outside the 64-bit head range. The first argument is recursion
fuel; `bignumBytes` instantiates it sufficiently. -/
def natToBytesBE : Nat → Nat → List Nat
  | 0, _ => []
  | fuel + 1, n =>
    if n = 0 then [] else natToBytesBE fuel (n / 256) ++ [n % 256]

/-- Bignum payload bytes of a natural number. -/
def bignumBytes (m : Nat) : List Nat := natToBytesBE m m

/-- Shortest-form CBOR head for major type `maj` and argument `n`
(what `cbor2` emits). -/
def encHead (maj : Nat) (n : Nat) : List Nat :=
  if n < 24 then [maj * 32 + n]
  else if n < 2 ^ 8 then [maj * 32 + 24, n]
  else if n < 2 ^ 16 then (maj * 32 + 25) :: toBytesBE 2 n
  else if n < 2 ^ 32 then (maj * 32 + 26) :: toBytesBE 4 n
  else (maj * 32 + 27) :: toBytesBE 8 n

/-- A byte-string data item: major-type-2 head and the raw bytes. -/
def byteItem (bs : List Nat) : List Nat := encHead 2 bs.length ++ bs

/-- A text-string data item: major-type-3 head and the UTF-8 bytes. -/
def textItem (bs : List Nat) : List Nat := encHead 3 bs.length ++ bs

/-! Modelled from the spec: `cbor2.dumps` on one value — shortest-form
heads, bignum tags 2/3 (`0xC2`/`0xC3` followed by a byte-string item) for
integers beyond 64 bits, a negative integer `n` encoded through the
argument `-1 - n`, floats as the byte `0xFB` followed by the 8-byte
IEEE-754 double bit pattern, and definite-length arrays and maps with
text keys in insertion order. A namespace is not encodable (`cbor2`
raises a type error on it); the store always applies `dictify` first,
which eliminates namespaces, so that case is modelled as an empty
encoding and excluded by `noNSV` in every statement about `dumpsV`. -/

mutual
def dumpsV : PyVal → List Nat
  | .pnull => [0xF6]
  | .pbool false => [0xF4]
  | .pbool true => [0xF5]
  | .pint n =>
    if 0 ≤ n then
      if n.toNat < 2 ^ 64 then encHead 0 n.toNat
      else 0xC2 :: byteItem (bignumBytes n.toNat)
    else
      if (-1 - n).toNat < 2 ^ 64 then encHead 1 (-1 - n).toNat
      else 0xC3 :: byteItem (bignumBytes (-1 - n).toNat)
  | .pfloat bits => 0xFB :: toBytesBE 8 bits
  | .pstr bs => textItem bs
  | .pbytes bs => byteItem bs
  | .plist xs => encHead 4 (lenL xs) ++ dumpsL xs
  | .pdict kvs => encHead 5 (lenKV kvs) ++ dumpsKV kvs
  | .pnamespace _ => []
def dumpsL : PyList → List Nat
  | .nil => []
  | .cons x xs => dumpsV x ++ dumpsL xs
def dumpsKV : PyKVs → List Nat
  | .nil => []
  | .cons k v kvs => textItem k ++ dumpsV v ++ dumpsKV kvs
end

/-! Well-formedness of a value for the Python encoder: every head
argument fits 64 bits (string, byte-string, list and map lengths; float
bit patterns), text and byte payloads are genuine bytes, and a bignum's
payload is itself addressable with a 64-bit head. -/
mutual
def wfV : PyVal → Bool
  | .pnull => true
  | .pbool _ => true
  | .pint n =>
    if 0 ≤ n then decide ((bignumBytes n.toNat).length < 2 ^ 64)
    else decide ((bignumBytes (-1 - n).toNat).length < 2 ^ 64)
  | .pfloat bits => decide (bits < 2 ^ 64)
  | .pstr bs =>
    decide (bs.length < 2 ^ 64) && bs.all (fun b => decide (b < 256))
  | .pbytes bs =>
    decide (bs.length < 2 ^ 64) && bs.all (fun b => decide (b < 256))
  | .plist xs => decide (lenL xs < 2 ^ 64) && wfL xs
  | .pdict kvs => decide (lenKV kvs < 2 ^ 64) && wfKV kvs
  | .pnamespace kvs => decide (lenKV kvs < 2 ^ 64) && wfKV kvs
def wfL : PyList → Bool
  | .nil => true
  | .cons x xs => wfV x && wfL xs
def wfKV : PyKVs → Bool
  | .nil => true
  | .cons k v kvs =>
    (decide (k.length < 2 ^ 64) && k.all (fun b => decide (b < 256)))
      && wfV v && wfKV kvs
end

/-! The value contains no namespace. This holds of everything `dictify`
returns; `cbor2` cannot encode a namespace. -/
mutual
def noNSV : PyVal → Bool
  | .plist xs => noNSL xs
  | .pdict kvs => noNSKV kvs
  | .pnamespace _ => false
  | _ => true
def noNSL : PyList → Bool
  | .nil => true
  | .cons x xs => noNSV x && noNSL xs
def noNSKV : PyKVs → Bool
  | .nil => true
  | .cons _ v kvs => noNSV v && noNSKV kvs
end

/-! The value is a fixed point of the round-trip canonicalization: it
contains no mapping (a decoded mapping comes back as a namespace) and no
namespace field whose name starts with an underscore (such fields are
dropped by `dictify`). -/
mutual
def isCanonV : PyVal → Bool
  | .plist xs => isCanonL xs
  | .pdict _ => false
  | .pnamespace kvs => isCanonKV kvs
  | _ => true
def isCanonL : PyList → Bool
  | .nil => true
  | .cons x xs => isCanonV x && isCanonL xs
def isCanonKV : PyKVs → Bool
  | .nil => true
  | .cons k v kvs => !(k.head? == some 95) && isCanonV v && isCanonKV kvs
end

/-! Decoder-step budget of a value: an upper bound on the nesting of
`decodeVal` calls its encoding costs (a bignum costs one extra step for
its inner byte-string item, a map entry one extra for its key item). -/
mutual
def nodesV : PyVal → Nat
  | .pint n =>
    if 0 ≤ n then (if n.toNat < 2 ^ 64 then 1 else 2)
    else (if (-1 - n).toNat < 2 ^ 64 then 1 else 2)
  | .plist xs => 1 + nodesL xs
  | .pdict kvs => 1 + nodesKV kvs
  | .pnamespace _ => 0
  | _ => 1
def nodesL : PyList → Nat
  | .nil => 0
  | .cons x xs => 1 + nodesV x + nodesL xs
def nodesKV : PyKVs → Nat
  | .nil => 0
  | .cons _ v kvs => 2 + nodesV v + nodesKV kvs
end

/-- Read the argument of a CBOR head given its low 5 bits and the bytes
following it; rejects the reserved widths 28–30 and indefinite-length 31
(which `cbor2` treats separately and the store never emits). -/
def readArg (info : Nat) (rest : List Nat) : Option (Nat × List Nat) :=
  if info < 24 then some (info, rest)
  else if info = 24 then
    match rest with
    | b :: r => some (b, r)
    | [] => none
  else if info = 25 then
    if 2 ≤ rest.length then some (fromBytesBE (rest.take 2), rest.drop 2)
    else none
  else if info = 26 then
    if 4 ≤ rest.length then some (fromBytesBE (rest.take 4), rest.drop 4)
    else none
  else if info = 27 then
    if 8 ≤ rest.length then some (fromBytesBE (rest.take 8), rest.drop 8)
    else none
  else none

/-! Modelled from the spec: `cbor2`'s generic decoder (`cbor2.loads`),
restricted to the heads the store's element encoder emits — other heads
(half- and single-precision floats, indefinite lengths, tags other than
the bignum tags 2 and 3, simple values other than false/true/null) are
never produced by the encoder and are modelled as a decode failure. The
first argument is recursion fuel, structural so the decoder computes;
`decodeTop` and `loadsAny` instantiate it sufficiently for any buffer. -/

mutual
def decodeVal : Nat → List Nat → Option (PyVal × List Nat)
  | 0, _ => none
  | _ + 1, [] => none
  | fuel + 1, b :: rest =>
    let maj := b / 32
    if maj = 0 then
      (readArg (b % 32) rest).map (fun a => (.pint (Int.ofNat a.1), a.2))
    else if maj = 1 then
      (readArg (b % 32) rest).map
        (fun a => (.pint (-1 - Int.ofNat a.1), a.2))
    else if maj = 2 then
      (readArg (b % 32) rest).bind (fun a =>
        if a.1 ≤ a.2.length then
          some (.pbytes (a.2.take a.1), a.2.drop a.1)
        else none)
    else if maj = 3 then
      (readArg (b % 32) rest).bind (fun a =>
        if a.1 ≤ a.2.length then
          some (.pstr (a.2.take a.1), a.2.drop a.1)
        else none)
    else if maj = 4 then
      (readArg (b % 32) rest).bind (fun a =>
        (decodeListN fuel a.1 a.2).map (fun y => (.plist y.1, y.2)))
    else if maj = 5 then
      (readArg (b % 32) rest).bind (fun a =>
        (decodeKVN fuel a.1 a.2).map (fun y => (.pdict y.1, y.2)))
    else if maj = 6 then
      (readArg (b % 32) rest).bind (fun a =>
        if a.1 = 2 then
          (decodeVal fuel a.2).bind (fun x =>
            match x.1 with
            | .pbytes bs => some (.pint (Int.ofNat (fromBytesBE bs)), x.2)
            | _ => none)
        else if a.1 = 3 then
          (decodeVal fuel a.2).bind (fun x =>
            match x.1 with
            | .pbytes bs =>
              some (.pint (-1 - Int.ofNat (fromBytesBE bs)), x.2)
            | _ => none)
        else none)
    else if b = 0xF4 then some (.pbool false, rest)
    else if b = 0xF5 then some (.pbool true, rest)
    else if b = 0xF6 then some (.pnull, rest)
    else if b = 0xFB then
      if 8 ≤ rest.length then
        some (.pfloat (fromBytesBE (rest.take 8)), rest.drop 8)
      else none
    else none
def decodeListN : Nat → Nat → List Nat → Option (PyList × List Nat)
  | _, 0, buf => some (.nil, buf)
  | 0, _ + 1, _ => none
  | fuel + 1, n + 1, buf =>
    (decodeVal fuel buf).bind (fun x =>
      (decodeListN fuel n x.2).map (fun y => (.cons x.1 y.1, y.2)))
def decodeKVN : Nat → Nat → List Nat → Option (PyKVs × List Nat)
  | _, 0, buf => some (.nil, buf)
  | 0, _ + 1, _ => none
  | fuel + 1, n + 1, buf =>
    (decodeVal fuel buf).bind (fun kx =>
      match kx.1 with
      | .pstr k =>
        (decodeVal fuel kx.2).bind (fun vx =>
          (decodeKVN fuel n vx.2).map (fun y => (.cons k vx.1 y.1, y.2)))
      | _ => none)
end

/-- Decode a buffer that starts with a CBOR array head as a list of
items (`cbor2.loads` on a `PersistentList` buffer, wrapped in
`namespacify` as `PersistentList.__init__` does; trailing bytes beyond
the declared element count are ignored, as `cbor2.loads` ignores them).
The fuel `2 * buf.length` is enough for any decodable buffer. -/
def decodeTop (buf : List Nat) : Option PyList :=
  match buf with
  | [] => none
  | b :: rest =>
    if b / 32 = 4 then
      (readArg (b % 32) rest).bind (fun a =>
        (decodeListN (2 * buf.length) a.1 a.2).map
          (fun y => namespacifyL y.1))
    else none

/-- Generic decode of a whole buffer (`cbor2.loads` followed by
`namespacify`, as in the reader's fallback branch). -/
def loadsAny (buf : List Nat) : Option PyVal :=
  (decodeVal (2 * buf.length) buf).map (fun x => namespacifyV x.1)


/-! ## Reading (source: `read_cbor_file`) -/

/-- The value a `read_cbor_file` call produces: a `PersistentList`
snapshot, a `PersistentArray` view (shape, dtype, payload bytes), or the
generic fallback. The `Option` inside the first and last constructors
models a propagated `cbor2` decode error on a corrupt body. -/
inductive ReadResult where
  | plist (items : Option PyList)
  | parray (shape : List Nat) (dtype : String) (payload : List Nat)
  | generic (v : Option PyVal)

/-- Source `read_cbor_file` on the file's bytes. The header is the first
128 bytes. The reader first tries the indefinite-list header parse; on
success the in-memory buffer has its first 9 bytes overwritten with a
fresh `list_header` before the body is decoded (`PersistentList.__init__`).
Otherwise it tries the multidim-array header parse; on success the payload
is memory-mapped at `data_offset` (NumPy raises a recoverable `ValueError`
when the file is too small for the declared shape, falling through).
Otherwise it decodes generically. -/
def read_cbor_file (file : List Nat) : ReadResult :=
  let header := file.take 128
  match parse_list header with
  | .ok n => .plist (decodeTop (list_header n ++ file.drop 9))
  | .error _ =>
    match parse_ndarray header with
    | .ok (shape, dtype) =>
      if data_offset shape.length + shapeProd shape * itemsize dtype
          ≤ file.length then
        .parray shape dtype
          ((file.drop (data_offset shape.length)).take
            (shapeProd shape * itemsize dtype))
      else .generic (loadsAny file)
    | .error _ => .generic (loadsAny file)

/-! ## Writing (source: `write_object_as_cbor`, `write_list`,
`write_ndarray`) -/

/-- Source `write_list`: the list header (computed from the original
element count) followed by the elements, each passed through `dictify`
and encoded (`cbor2.dump(dictify(elem), f)`). -/
def write_list (xs : PyList) : List Nat :=
  list_header (lenL xs) ++ dumpsL (dictifyL xs)

/-- Source `write_ndarray`: the array header followed by the row-major
payload bytes (shape, dtype descriptor and raw data of the NumPy array). -/
def write_ndarray (shape : List Nat) (dtype : String) (payload : List Nat) :
    List Nat :=
  ndarray_header shape dtype ++ payload

/-- A value handed to `write_object_as_cbor`: a NumPy array (shape, dtype,
payload bytes), a plain list, or any other object encoded generically. -/
inductive WObj where
  | arr (shape : List Nat) (dtype : String) (payload : List Nat)
  | lst (xs : PyList)
  | other (v : PyVal)

/-- Source `write_object_as_cbor`: arrays get the multidim form, lists the
indefinite-list form, everything else the generic encoding. -/
def write_object_as_cbor : WObj → List Nat
  | .arr shape dtype payload => write_ndarray shape dtype payload
  | .lst xs => write_list xs
  | .other v => dumpsV (dictifyV v)

/-! ## Growable containers (source: `PersistentList.extend`,
`PersistentArrayImpl.extend`) -/

/-- Source `PersistentList.extend` seen at the byte level: append the
items, passed through `dictify` and encoded, to the end of the backing
file, then overwrite the 9-byte header with the new total count
(`len(self) + len(items)`, where `len(self)` is the snapshot length
`curLen`). -/
def persistent_list_extend (file : List Nat) (curLen : Nat)
    (items : PyList) : List Nat :=
  let file1 := file ++ dumpsL (dictifyL items)
  list_header (curLen + lenL items) ++ file1.drop 9

/-- Source `PersistentArrayImpl.extend` seen at the byte level. `shape`
and `dtype` are the memory-mapped view's current shape and dtype;
`itemsShape`/`itemsBytes` describe `np.require(items, dtype)`.  The three
validation errors are raised in source order; then the raw bytes are
appended and the header is rewritten with the grown leading dimension.
Returns the new file bytes and the new shape. -/
def persistent_array_extend (file : List Nat) (shape : List Nat)
    (dtype : String) (itemsShape : List Nat) (itemsBytes : List Nat) :
    Except String (List Nat × List Nat) :=
  if shape.length = 0 then .error "scalars cannot be extended"
  else if itemsShape.length = 0 then .error "items must be a sequence"
  else if itemsShape.tail ≠ shape.tail then
    .error "container and item shapes do not match"
  else
    let newShape := (shape.headD 0 + itemsShape.headD 0) :: shape.tail
    let newHeader := ndarray_header newShape dtype
    .ok (newHeader ++ (file ++ itemsBytes).drop newHeader.length, newShape)


/-! ## Parsing lemmas -/

theorem get?_of_drop_eq {buf : List Nat} {pos b : Nat} {tail : List Nat}
    (h : buf.drop pos = b :: tail) : buf.get? pos = some b := by
  have h0 := List.get?_drop buf pos 0
  rw [h] at h0
  simpa using h0.symm

theorem drop_succ_of_drop_eq {buf : List Nat} {pos b : Nat} {tail : List Nat}
    (h : buf.drop pos = b :: tail) : buf.drop (pos + 1) = tail := by
  have h1 : (buf.drop pos).drop 1 = tail := by rw [h]; rfl
  rw [List.drop_drop] at h1
  exact h1

theorem encByte_div_mod (maj info : Nat) (h : info < 32) :
    (maj * 32 + info) / 32 = maj ∧ (maj * 32 + info) % 32 = info := by
  constructor
  · rw [Nat.add_comm, Nat.add_mul_div_right _ _ (by norm_num : (0:ℕ) < 32),
      Nat.div_eq_of_lt h]
    omega
  · rw [Nat.add_comm, Nat.add_mul_mod_self_right, Nat.mod_eq_of_lt h]

theorem byte_split_or : ∀ m < 32, (128 ||| m) = 128 + m
    ∧ (128 + m) &&& 0xE0 = 128 ∧ (128 + m) &&& 0x1F = m := by decide

/-- Behavior of `parse_token` on a token whose low five bits encode the
argument directly. -/
theorem parse_token_small {buf : List Nat} {pos b expected : Nat}
    {tail : List Nat} (h : buf.drop pos = b :: tail)
    (hmaj : b &&& 0xE0 = expected) (hinfo : b &&& 0x1F < 24) :
    parse_token buf pos expected = .ok (pos + 1, b &&& 0x1F) := by
  rw [parse_token, get?_of_drop_eq h]
  simp [hmaj, INFO_NEXT_BYTE, hinfo]

/-- Behavior of `parse_token` on a token whose argument is the following
single byte. -/
theorem parse_token_next1 {buf : List Nat} {pos b expected : Nat}
    {tail : List Nat} (h : buf.drop pos = b :: tail)
    (hmaj : b &&& 0xE0 = expected) (hinfo : b &&& 0x1F = 24) :
    parse_token buf pos expected = .ok (pos + 2, fromBytesBE (tail.take 1)) := by
  rw [parse_token, get?_of_drop_eq h]
  simp [hmaj, hinfo, INFO_NEXT_BYTE, drop_succ_of_drop_eq h]

/-- Behavior of `parse_token` on a token whose argument is the following
8-byte big-endian integer. -/
theorem parse_token_next8 {buf : List Nat} {pos b expected : Nat}
    {tail : List Nat} (h : buf.drop pos = b :: tail)
    (hmaj : b &&& 0xE0 = expected) (hinfo : b &&& 0x1F = 27) :
    parse_token buf pos expected = .ok (pos + 9, fromBytesBE (tail.take 8)) := by
  rw [parse_token, get?_of_drop_eq h]
  simp [hmaj, hinfo, INFO_NEXT_BYTE, INFO_NEXT_2_BYTES, INFO_NEXT_4_BYTES,
    INFO_NEXT_8_BYTES, drop_succ_of_drop_eq h]

/-- A token of the wrong major type is rejected with a recoverable
`ValueError`. -/
theorem parse_token_wrong_major {buf : List Nat} {pos b expected : Nat}
    (h : buf.get? pos = some b) (hmaj : b &&& 0xE0 ≠ expected) :
    parse_token buf pos expected = .error .valueError := by
  rw [parse_token, h]
  simp [hmaj]

/-- Reading past the end of the buffer is rejected with a recoverable
`IndexError`. -/
theorem parse_token_oob {buf : List Nat} {pos expected : Nat}
    (h : buf.get? pos = none) :
    parse_token buf pos expected = .error .indexError := by
  rw [parse_token, h]

/-- The list-header parse succeeds on a buffer that begins with
`list_header n`, recovering exactly `n`. -/
theorem parse_list_of_header (n : Nat) (rest : List Nat) (hn : n < 2 ^ 64) :
    parse_list (list_header n ++ rest) = .ok n := by
  have hb : (list_header n ++ rest).drop 0 = 155 :: (toBytesBE 8 n ++ rest) := by
    simp [list_header, MAJOR_TYPE_ARRAY, INFO_NEXT_8_BYTES]
  have ht := @parse_token_next8 (list_header n ++ rest) 0 155 MAJOR_TYPE_ARRAY
    (toBytesBE 8 n ++ rest) hb (by decide) (by decide)
  have htake : (toBytesBE 8 n ++ rest).take 8 = toBytesBE 8 n :=
    List.take_left' (toBytesBE_length 8 n)
  rw [parse_list, ht, htake, fromBytesBE_toBytesBE 8 n (by simpa using hn)]
  rfl

/-- The list-header parse fails with a recoverable condition on any buffer
whose first byte is not an array-type marker. -/
theorem parse_list_wrong_major {buf : List Nat} {b : Nat}
    (h : buf.get? 0 = some b) (hmaj : b &&& 0xE0 ≠ MAJOR_TYPE_ARRAY) :
    parse_list buf = .error .valueError := by
  rw [parse_list, parse_token_wrong_major h hmaj]
  rfl

/-! ## Element-codec roundtrip lemmas -/

/-- The canonical head encoding decomposes into a first byte plus
argument bytes, and `readArg` recovers the argument. -/
theorem readArg_w2 (t rest : List Nat) (ht : t.length = 2) :
    readArg 25 (t ++ rest) = some (fromBytesBE t, rest) := by
  unfold readArg
  rw [if_neg (by norm_num), if_neg (by norm_num), if_pos rfl,
    if_pos (by simp [ht]), List.take_left' ht, List.drop_left' ht]

theorem readArg_w4 (t rest : List Nat) (ht : t.length = 4) :
    readArg 26 (t ++ rest) = some (fromBytesBE t, rest) := by
  unfold readArg
  rw [if_neg (by norm_num), if_neg (by norm_num), if_neg (by norm_num),
    if_pos rfl, if_pos (by simp [ht]), List.take_left' ht, List.drop_left' ht]

theorem readArg_w8 (t rest : List Nat) (ht : t.length = 8) :
    readArg 27 (t ++ rest) = some (fromBytesBE t, rest) := by
  unfold readArg
  rw [if_neg (by norm_num), if_neg (by norm_num), if_neg (by norm_num),
    if_neg (by norm_num), if_pos rfl, if_pos (by simp [ht]),
    List.take_left' ht, List.drop_left' ht]

theorem readArg_encHead (maj n : Nat) (hmaj : maj ≤ 7) (hn : n < 2 ^ 64) :
    ∃ b tail, encHead maj n = b :: tail ∧ b / 32 = maj ∧ b % 32 < 28 ∧
      ∀ rest, readArg (b % 32) (tail ++ rest) = some (n, rest) := by
  by_cases h1 : n < 24
  · obtain ⟨hd, hm⟩ := encByte_div_mod maj n (by omega)
    refine ⟨maj * 32 + n, [], by rw [encHead, if_pos h1], hd, by omega, ?_⟩
    intro rest
    rw [hm]
    simp [readArg, h1]
  · by_cases h2 : n < 2 ^ 8
    · obtain ⟨hd, hm⟩ := encByte_div_mod maj 24 (by omega)
      refine ⟨maj * 32 + 24, [n],
        by rw [encHead, if_neg h1, if_pos h2], hd, by omega, ?_⟩
      intro rest
      rw [hm]
      simp [readArg]
    · by_cases h3 : n < 2 ^ 16
      · obtain ⟨hd, hm⟩ := encByte_div_mod maj 25 (by omega)
        refine ⟨maj * 32 + 25, toBytesBE 2 n,
          by rw [encHead, if_neg h1, if_neg h2, if_pos h3], hd, by omega, ?_⟩
        intro rest
        rw [hm, readArg_w2 _ _ (toBytesBE_length 2 n),
          fromBytesBE_toBytesBE 2 n (by simpa using h3)]
      · by_cases h4 : n < 2 ^ 32
        · obtain ⟨hd, hm⟩ := encByte_div_mod maj 26 (by omega)
          refine ⟨maj * 32 + 26, toBytesBE 4 n,
            by rw [encHead, if_neg h1, if_neg h2, if_neg h3, if_pos h4],
            hd, by omega, ?_⟩
          intro rest
          rw [hm, readArg_w4 _ _ (toBytesBE_length 4 n),
            fromBytesBE_toBytesBE 4 n (by simpa using h4)]
        · obtain ⟨hd, hm⟩ := encByte_div_mod maj 27 (by omega)
          refine ⟨maj * 32 + 27, toBytesBE 8 n,
            by rw [encHead, if_neg h1, if_neg h2, if_neg h3, if_neg h4],
            hd, by omega, ?_⟩
          intro rest
          rw [hm, readArg_w8 _ _ (toBytesBE_length 8 n),
            fromBytesBE_toBytesBE 8 n (by simpa using hn)]

/-! ## Element-codec lemmas -/

theorem natToBytesBE_lt : ∀ (f n : Nat), ∀ b ∈ natToBytesBE f n, b < 256 := by
  intro f
  induction f with
  | zero => intro n b hb; simp [natToBytesBE] at hb
  | succ f ih =>
    intro n b hb
    rw [natToBytesBE] at hb
    by_cases h : n = 0
    · simp [h] at hb
    · rw [if_neg h] at hb
      rcases List.mem_append.mp hb with h1 | h2
      · exact ih _ b h1
      · simp at h2
        subst h2
        exact Nat.mod_lt _ (by norm_num)

theorem fromBytesBE_natToBytesBE :
    ∀ (f n : Nat), n ≤ f → fromBytesBE (natToBytesBE f n) = n := by
  intro f
  induction f with
  | zero => intro n h; interval_cases n; simp [natToBytesBE, fromBytesBE]
  | succ f ih =>
    intro n h
    rw [natToBytesBE]
    by_cases h0 : n = 0
    · simp [h0, fromBytesBE]
    · have hlt : n / 256 < n := Nat.div_lt_self (Nat.pos_of_ne_zero h0)
        (by norm_num)
      rw [if_neg h0, fromBytesBE_append_single, ih (n / 256) (by omega)]
      omega

theorem encHead_length_pos (maj n : Nat) : 0 < (encHead maj n).length := by
  rw [encHead]
  split_ifs <;> simp

theorem lenKV_dictifyNS_le : ∀ kvs, lenKV (dictifyNS kvs) ≤ lenKV kvs
  | .nil => Nat.le_refl _
  | .cons k v kvs => by
    rw [dictifyNS]
    by_cases h : (k.head? == some 95) = true
    · rw [if_pos h]
      exact Nat.le_succ_of_le (lenKV_dictifyNS_le kvs)
    · rw [if_neg h]
      simpa [lenKV] using lenKV_dictifyNS_le kvs

theorem lenL_dictifyL : ∀ xs, lenL (dictifyL xs) = lenL xs
  | .nil => rfl
  | .cons x xs => by rw [dictifyL]; simp [lenL, lenL_dictifyL xs]

theorem lenL_namespacifyL : ∀ xs, lenL (namespacifyL xs) = lenL xs
  | .nil => rfl
  | .cons x xs => by rw [namespacifyL]; simp [lenL, lenL_namespacifyL xs]

theorem lenL_canonL (xs : PyList) : lenL (canonL xs) = lenL xs := by
  rw [canonL, lenL_namespacifyL, lenL_dictifyL]

theorem lenL_append : ∀ xs ys, lenL (pyAppend xs ys) = lenL xs + lenL ys
  | .nil, ys => by simp [pyAppend, lenL]
  | .cons x xs, ys => by
    rw [pyAppend]
    simp [lenL, lenL_append xs ys]
    omega

theorem dictifyL_append : ∀ xs ys,
    dictifyL (pyAppend xs ys) = pyAppend (dictifyL xs) (dictifyL ys)
  | .nil, ys => rfl
  | .cons x xs, ys => by
    rw [pyAppend, dictifyL, dictifyL, pyAppend, dictifyL_append xs ys]

theorem dumpsL_append : ∀ xs ys,
    dumpsL (pyAppend xs ys) = dumpsL xs ++ dumpsL ys
  | .nil, ys => rfl
  | .cons x xs, ys => by
    rw [pyAppend, dumpsL, dumpsL, dumpsL_append xs ys, List.append_assoc]

theorem wfL_append : ∀ xs ys, wfL xs = true → wfL ys = true →
    wfL (pyAppend xs ys) = true
  | .nil, ys => fun _ hy => hy
  | .cons x xs, ys => fun hx hy => by
    rw [wfL] at hx
    rw [pyAppend, wfL]
    simp only [Bool.and_eq_true] at hx ⊢
    exact ⟨hx.1, wfL_append xs ys hx.2 hy⟩

theorem nodesV_pos (v : PyVal) (h : noNSV v = true) : 1 ≤ nodesV v := by
  cases v <;> simp [nodesV] <;> first | (split_ifs <;> omega) | simp [noNSV] at h

theorem lenKV_dictifyKV : ∀ kvs, lenKV (dictifyKV kvs) = lenKV kvs
  | .nil => rfl
  | .cons k v kvs => by rw [dictifyKV]; simp [lenKV, lenKV_dictifyKV kvs]

mutual
theorem wfV_dictify : ∀ v, wfV v = true → wfV (dictifyV v) = true
  | .pnull => fun h => h
  | .pbool b => fun h => h
  | .pint n => fun h => h
  | .pfloat bits => fun h => h
  | .pstr bs => fun h => h
  | .pbytes bs => fun h => h
  | .plist xs => fun h => by
    rw [wfV] at h
    rw [dictifyV, wfV]
    simp only [Bool.and_eq_true, decide_eq_true_eq] at h ⊢
    exact ⟨by rw [lenL_dictifyL]; exact h.1, wfL_dictify xs h.2⟩
  | .pdict kvs => fun h => by
    rw [wfV] at h
    rw [dictifyV, wfV]
    simp only [Bool.and_eq_true, decide_eq_true_eq] at h ⊢
    exact ⟨by rw [lenKV_dictifyKV]; exact h.1, wfKV_dictify kvs h.2⟩
  | .pnamespace kvs => fun h => by
    rw [wfV] at h
    rw [dictifyV, wfV]
    simp only [Bool.and_eq_true, decide_eq_true_eq] at h ⊢
    exact ⟨Nat.lt_of_le_of_lt (lenKV_dictifyNS_le kvs) h.1,
      wfKV_dictifyNS kvs h.2⟩
theorem wfL_dictify : ∀ xs, wfL xs = true → wfL (dictifyL xs) = true
  | .nil => fun h => h
  | .cons x xs => fun h => by
    rw [wfL] at h
    rw [dictifyL, wfL]
    simp only [Bool.and_eq_true] at h ⊢
    exact ⟨wfV_dictify x h.1, wfL_dictify xs h.2⟩
theorem wfKV_dictify : ∀ kvs, wfKV kvs = true → wfKV (dictifyKV kvs) = true
  | .nil => fun h => h
  | .cons k v kvs => fun h => by
    rw [wfKV] at h
    rw [dictifyKV, wfKV]
    simp only [Bool.and_eq_true] at h ⊢
    exact ⟨⟨h.1.1, wfV_dictify v h.1.2⟩, wfKV_dictify kvs h.2⟩
theorem wfKV_dictifyNS : ∀ kvs, wfKV kvs = true → wfKV (dictifyNS kvs) = true
  | .nil => fun h => h
  | .cons k v kvs => fun h => by
    rw [wfKV] at h
    simp only [Bool.and_eq_true] at h
    rw [dictifyNS]
    by_cases hk : (k.head? == some 95) = true
    · rw [if_pos hk]
      exact wfKV_dictifyNS kvs h.2
    · rw [if_neg hk, wfKV]
      simp only [Bool.and_eq_true]
      exact ⟨⟨h.1.1, wfV_dictify v h.1.2⟩, wfKV_dictifyNS kvs h.2⟩
end


mutual
theorem noNSV_dictify : ∀ v, noNSV (dictifyV v) = true
  | .pnull => rfl
  | .pbool _ => rfl
  | .pint _ => rfl
  | .pfloat _ => rfl
  | .pstr _ => rfl
  | .pbytes _ => rfl
  | .plist xs => by rw [dictifyV, noNSV]; exact noNSL_dictify xs
  | .pdict kvs => by rw [dictifyV, noNSV]; exact noNSKV_dictify kvs
  | .pnamespace kvs => by rw [dictifyV, noNSV]; exact noNSKV_dictifyNS kvs
theorem noNSL_dictify : ∀ xs, noNSL (dictifyL xs) = true
  | .nil => rfl
  | .cons x xs => by
    rw [dictifyL, noNSL]
    simp only [Bool.and_eq_true]
    exact ⟨noNSV_dictify x, noNSL_dictify xs⟩
theorem noNSKV_dictify : ∀ kvs, noNSKV (dictifyKV kvs) = true
  | .nil => rfl
  | .cons k v kvs => by
    rw [dictifyKV, noNSKV]
    simp only [Bool.and_eq_true]
    exact ⟨noNSV_dictify v, noNSKV_dictify kvs⟩
theorem noNSKV_dictifyNS : ∀ kvs, noNSKV (dictifyNS kvs) = true
  | .nil => rfl
  | .cons k v kvs => by
    rw [dictifyNS]
    by_cases hk : (k.head? == some 95) = true
    · rw [if_pos hk]
      exact noNSKV_dictifyNS kvs
    · rw [if_neg hk, noNSKV]
      simp only [Bool.and_eq_true]
      exact ⟨noNSV_dictify v, noNSKV_dictifyNS kvs⟩
end

mutual
theorem canonV_eq : ∀ v, isCanonV v = true → canonV v = v
  | .pnull => fun _ => rfl
  | .pbool _ => fun _ => rfl
  | .pint _ => fun _ => rfl
  | .pfloat _ => fun _ => rfl
  | .pstr _ => fun _ => rfl
  | .pbytes _ => fun _ => rfl
  | .plist xs => fun h => by
    rw [isCanonV] at h
    show PyVal.plist (canonL xs) = PyVal.plist xs
    rw [canonL_eq xs h]
  | .pdict kvs => fun h => by rw [isCanonV] at h; exact absurd h (by simp)
  | .pnamespace kvs => fun h => by
    rw [isCanonV] at h
    show PyVal.pnamespace (namespacifyKV (dictifyNS kvs))
      = PyVal.pnamespace kvs
    rw [canonKV_eq kvs h]
theorem canonL_eq : ∀ xs, isCanonL xs = true → canonL xs = xs
  | .nil => fun _ => rfl
  | .cons x xs => fun h => by
    rw [isCanonL] at h
    simp only [Bool.and_eq_true] at h
    show PyList.cons (canonV x) (canonL xs) = PyList.cons x xs
    rw [canonV_eq x h.1, canonL_eq xs h.2]
theorem canonKV_eq : ∀ kvs, isCanonKV kvs = true →
    namespacifyKV (dictifyNS kvs) = kvs
  | .nil => fun _ => rfl
  | .cons k v kvs => fun h => by
    rw [isCanonKV] at h
    simp only [Bool.and_eq_true, Bool.not_eq_true'] at h
    rw [dictifyNS, if_neg (by rw [h.1.1]; simp), namespacifyKV]
    show PyKVs.cons k (canonV v) (namespacifyKV (dictifyNS kvs))
      = PyKVs.cons k v kvs
    rw [canonV_eq v h.1.2, canonKV_eq kvs h.2]
end

mutual
theorem nodesV_le : ∀ v, noNSV v = true →
    nodesV v + 1 ≤ 2 * (dumpsV v).length
  | .pnull => fun _ => by simp [nodesV, dumpsV]
  | .pbool b => fun _ => by cases b <;> simp [nodesV, dumpsV]
  | .pint n => fun _ => by
    rw [nodesV, dumpsV]
    split_ifs
    · have := encHead_length_pos 0 n.toNat
      omega
    · have := encHead_length_pos 2 (bignumBytes n.toNat).length
      simp only [List.length_cons, byteItem, List.length_append]
      omega
    · have := encHead_length_pos 1 (-1 - n).toNat
      omega
    · have := encHead_length_pos 2 (bignumBytes (-1 - n).toNat).length
      simp only [List.length_cons, byteItem, List.length_append]
      omega
  | .pfloat bits => fun _ => by simp [nodesV, dumpsV]
  | .pstr bs => fun _ => by
    have := encHead_length_pos 3 bs.length
    simp only [nodesV, dumpsV, textItem, List.length_append]
    omega
  | .pbytes bs => fun _ => by
    have := encHead_length_pos 2 bs.length
    simp only [nodesV, dumpsV, byteItem, List.length_append]
    omega
  | .plist xs => fun h => by
    rw [noNSV] at h
    have h1 := nodesL_le xs h
    have h2 := encHead_length_pos 4 (lenL xs)
    simp only [nodesV, dumpsV, List.length_append]
    omega
  | .pdict kvs => fun h => by
    rw [noNSV] at h
    have h1 := nodesKV_le kvs h
    have h2 := encHead_length_pos 5 (lenKV kvs)
    simp only [nodesV, dumpsV, List.length_append]
    omega
  | .pnamespace kvs => fun h => by rw [noNSV] at h; exact absurd h (by simp)
theorem nodesL_le : ∀ xs, noNSL xs = true →
    nodesL xs ≤ 2 * (dumpsL xs).length
  | .nil => fun _ => by simp [nodesL, dumpsL]
  | .cons x xs => fun h => by
    rw [noNSL] at h
    simp only [Bool.and_eq_true] at h
    have h1 := nodesV_le x h.1
    have h2 := nodesL_le xs h.2
    simp only [nodesL, dumpsL, List.length_append]
    omega
theorem nodesKV_le : ∀ kvs, noNSKV kvs = true →
    nodesKV kvs ≤ 2 * (dumpsKV kvs).length
  | .nil => fun _ => by simp [nodesKV, dumpsKV]
  | .cons k v kvs => fun h => by
    rw [noNSKV] at h
    simp only [Bool.and_eq_true] at h
    have h1 := nodesV_le v h.1
    have h2 := nodesKV_le kvs h.2
    have h3 := encHead_length_pos 3 k.length
    simp only [nodesKV, dumpsKV, textItem, List.length_append]
    omega
end

theorem dln0 (fuel : Nat) (buf : List Nat) :
    decodeListN fuel 0 buf = some (.nil, buf) := by
  cases fuel <;> rfl

theorem dkv0 (fuel : Nat) (buf : List Nat) :
    decodeKVN fuel 0 buf = some (.nil, buf) := by
  cases fuel <;> rfl

theorem decodeListN_succ (fuel n : Nat) (buf : List Nat) :
    decodeListN (fuel + 1) (n + 1) buf
      = (decodeVal fuel buf).bind (fun x =>
          (decodeListN fuel n x.2).map
            (fun y => (.cons x.1 y.1, y.2))) := rfl

theorem decodeKVN_succ (fuel n : Nat) (buf : List Nat) :
    decodeKVN (fuel + 1) (n + 1) buf
      = (decodeVal fuel buf).bind (fun kx =>
          match kx.1 with
          | .pstr k =>
            (decodeVal fuel kx.2).bind (fun vx =>
              (decodeKVN fuel n vx.2).map
                (fun y => (.cons k vx.1 y.1, y.2)))
          | _ => none) := rfl

/-- Decoding inverts the element encoder on well-formed, namespace-free
values, leaving trailing bytes untouched, whenever the fuel covers the
value's decoder-step budget (conjunction over the three mutual
syntactic classes, by induction on the fuel). -/
theorem decode_dumps : ∀ fuel : Nat,
    (∀ v rest, wfV v = true → noNSV v = true → nodesV v ≤ fuel →
      decodeVal fuel (dumpsV v ++ rest) = some (v, rest))
    ∧ (∀ xs rest, wfL xs = true → noNSL xs = true → nodesL xs ≤ fuel →
      decodeListN fuel (lenL xs) (dumpsL xs ++ rest) = some (xs, rest))
    ∧ (∀ kvs rest, wfKV kvs = true → noNSKV kvs = true →
      nodesKV kvs ≤ fuel →
      decodeKVN fuel (lenKV kvs) (dumpsKV kvs ++ rest) = some (kvs, rest)) := by
  intro fuel
  induction fuel with
  | zero =>
    refine ⟨fun v rest _ hns hn => ?_, fun xs rest _ hns hn => ?_,
      fun kvs rest _ hns hn => ?_⟩
    · exact absurd hn (by have := nodesV_pos v hns; omega)
    · cases xs with
      | nil => simp [lenL, dumpsL, dln0]
      | cons x xs => rw [nodesL] at hn; omega
    · cases kvs with
      | nil => simp [lenKV, dumpsKV, dkv0]
      | cons k v kvs => rw [nodesKV] at hn; omega
  | succ f ih =>
    refine ⟨fun v rest hwf hns hn => ?_, fun xs rest hwf hns hn => ?_,
      fun kvs rest hwf hns hn => ?_⟩
    · cases v with
      | pnull => simp [dumpsV, decodeVal]
      | pbool b => cases b <;> simp [dumpsV, decodeVal]
      | pint n =>
        by_cases hpos : 0 ≤ n
        · by_cases hsmall : n.toNat < 2 ^ 64
          · obtain ⟨b, tail, henc, hdiv, hinfo, hread⟩ :=
              readArg_encHead 0 n.toNat (by norm_num) hsmall
            rw [dumpsV, if_pos hpos, if_pos hsmall, henc,
              List.cons_append, decodeVal]
            simp [hdiv, hread rest, Int.toNat_of_nonneg hpos]
          · have hlen : (bignumBytes n.toNat).length < 2 ^ 64 := by
              rw [wfV, if_pos hpos] at hwf
              exact of_decide_eq_true hwf
            have hwf2 : wfV (.pbytes (bignumBytes n.toNat)) = true := by
              rw [wfV]
              simp only [Bool.and_eq_true, decide_eq_true_eq,
                List.all_eq_true]
              exact ⟨hlen, fun b hb => by
                simpa using natToBytesBE_lt _ _ b hb⟩
            have hn2 : nodesV (.pbytes (bignumBytes n.toNat)) ≤ f := by
              rw [nodesV, if_pos hpos, if_neg hsmall] at hn
              simp [nodesV]
              omega
            have hpb := ih.1 (.pbytes (bignumBytes n.toNat)) rest hwf2
              (by simp [noNSV]) hn2
            rw [dumpsV] at hpb
            rw [dumpsV, if_pos hpos, if_neg hsmall,
              List.cons_append, decodeVal]
            norm_num [readArg]
            rw [hpb]
            have hfb : fromBytesBE (bignumBytes n.toNat) = n.toNat :=
              fromBytesBE_natToBytesBE _ _ (Nat.le_refl _)
            simp [Option.bind, hfb, Int.toNat_of_nonneg hpos]
        · by_cases hsmall : (-1 - n).toNat < 2 ^ 64
          · obtain ⟨b, tail, henc, hdiv, hinfo, hread⟩ :=
              readArg_encHead 1 (-1 - n).toNat (by norm_num) hsmall
            rw [dumpsV, if_neg hpos, if_pos hsmall, henc,
              List.cons_append, decodeVal]
            have hcast : ((-1 - n).toNat : Int) = -1 - n :=
              Int.toNat_of_nonneg (by omega)
            simp [hdiv, hread rest]
            omega
          · have hlen : (bignumBytes (-1 - n).toNat).length < 2 ^ 64 := by
              rw [wfV, if_neg hpos] at hwf
              exact of_decide_eq_true hwf
            have hwf2 : wfV (.pbytes (bignumBytes (-1 - n).toNat))
                = true := by
              rw [wfV]
              simp only [Bool.and_eq_true, decide_eq_true_eq,
                List.all_eq_true]
              exact ⟨hlen, fun b hb => by
                simpa using natToBytesBE_lt _ _ b hb⟩
            have hn2 : nodesV (.pbytes (bignumBytes (-1 - n).toNat))
                ≤ f := by
              rw [nodesV, if_neg hpos, if_neg hsmall] at hn
              simp [nodesV]
              omega
            have hpb := ih.1 (.pbytes (bignumBytes (-1 - n).toNat)) rest
              hwf2 (by simp [noNSV]) hn2
            rw [dumpsV] at hpb
            rw [dumpsV, if_neg hpos, if_neg hsmall,
              List.cons_append, decodeVal]
            norm_num [readArg]
            rw [hpb]
            have hfb : fromBytesBE (bignumBytes (-1 - n).toNat)
                = (-1 - n).toNat :=
              fromBytesBE_natToBytesBE _ _ (Nat.le_refl _)
            simp [Option.bind, hfb]
            omega
      | pfloat bits =>
        have hb : bits < 2 ^ 64 := by
          rw [wfV] at hwf
          exact of_decide_eq_true hwf
        have hlen8 := toBytesBE_length 8 bits
        rw [dumpsV, List.cons_append, decodeVal]
        simp [List.take_left' hlen8, List.drop_left' hlen8, hlen8,
          fromBytesBE_toBytesBE 8 bits (by simpa using hb)]
      | pstr bs =>
        rw [wfV] at hwf
        simp only [Bool.and_eq_true, decide_eq_true_eq] at hwf
        obtain ⟨b, tail, henc, hdiv, hinfo, hread⟩ :=
          readArg_encHead 3 bs.length (by norm_num) hwf.1
        rw [dumpsV, textItem, henc, List.append_assoc,
          List.cons_append, decodeVal]
        simp only [hdiv]
        norm_num
        rw [hread (bs ++ rest)]
        simp [Option.bind, List.take_left' rfl, List.drop_left' rfl]
      | pbytes bs =>
        rw [wfV] at hwf
        simp only [Bool.and_eq_true, decide_eq_true_eq] at hwf
        obtain ⟨b, tail, henc, hdiv, hinfo, hread⟩ :=
          readArg_encHead 2 bs.length (by norm_num) hwf.1
        rw [dumpsV, byteItem, henc, List.append_assoc,
          List.cons_append, decodeVal]
        simp only [hdiv]
        norm_num
        rw [hread (bs ++ rest)]
        simp [Option.bind, List.take_left' rfl, List.drop_left' rfl]
      | plist xs =>
        rw [wfV] at hwf
        simp only [Bool.and_eq_true, decide_eq_true_eq] at hwf
        rw [noNSV] at hns
        have hnodes : nodesL xs ≤ f := by rw [nodesV] at hn; omega
        obtain ⟨b, tail, henc, hdiv, hinfo, hread⟩ :=
          readArg_encHead 4 (lenL xs) (by norm_num) hwf.1
        rw [dumpsV, henc, List.append_assoc, List.cons_append, decodeVal]
        simp only [hdiv]
        norm_num
        rw [hread (dumpsL xs ++ rest)]
        simp [Option.bind, ih.2.1 xs rest hwf.2 hns hnodes]
      | pdict kvs =>
        rw [wfV] at hwf
        simp only [Bool.and_eq_true, decide_eq_true_eq] at hwf
        rw [noNSV] at hns
        have hnodes : nodesKV kvs ≤ f := by rw [nodesV] at hn; omega
        obtain ⟨b, tail, henc, hdiv, hinfo, hread⟩ :=
          readArg_encHead 5 (lenKV kvs) (by norm_num) hwf.1
        rw [dumpsV, henc, List.append_assoc, List.cons_append, decodeVal]
        simp only [hdiv]
        norm_num
        rw [hread (dumpsKV kvs ++ rest)]
        simp [Option.bind, ih.2.2 kvs rest hwf.2 hns hnodes]
      | pnamespace kvs =>
        rw [noNSV] at hns
        exact absurd hns (by simp)
    · cases xs with
      | nil => simp [lenL, dumpsL, dln0]
      | cons x xs =>
        rw [wfL] at hwf
        rw [noNSL] at hns
        simp only [Bool.and_eq_true] at hwf hns
        rw [nodesL] at hn
        rw [lenL, dumpsL, List.append_assoc, decodeListN_succ,
          ih.1 x (dumpsL xs ++ rest) hwf.1 hns.1 (by omega)]
        simp [ih.2.1 xs rest hwf.2 hns.2 (by omega)]
    · cases kvs with
      | nil => simp [lenKV, dumpsKV, dkv0]
      | cons k v kvs =>
        rw [wfKV] at hwf
        rw [noNSKV] at hns
        simp only [Bool.and_eq_true] at hwf hns
        rw [nodesKV] at hn
        have hwfk : wfV (.pstr k) = true := by
          rw [wfV]
          simp only [Bool.and_eq_true]
          exact hwf.1.1
        have hk := ih.1 (.pstr k)
          (dumpsV v ++ (dumpsKV kvs ++ rest)) hwfk (by simp [noNSV])
          (by simp [nodesV]; omega)
        rw [dumpsV] at hk
        rw [lenKV, dumpsKV, List.append_assoc, List.append_assoc,
          decodeKVN_succ, hk]
        simp [ih.1 v (dumpsKV kvs ++ rest) hwf.1.2 hns.1 (by omega),
          ih.2.2 kvs rest hwf.2 hns.2 (by omega)]

theorem list_header_length (n : Nat) : (list_header n).length = 9 := by
  simp [list_header, toBytesBE_length]

/-- Decoding a written list buffer yields the canonicalized elements. -/
theorem decodeTop_write (xs : PyList) (hwf : wfL xs = true)
    (hlen : lenL xs < 2 ^ 64) :
    decodeTop (list_header (lenL xs) ++ dumpsL (dictifyL xs))
      = some (canonL xs) := by
  have hwfy : wfL (dictifyL xs) = true := wfL_dictify xs hwf
  have hnsy : noNSL (dictifyL xs) = true := noNSL_dictify xs
  have hleny : lenL (dictifyL xs) = lenL xs := lenL_dictifyL xs
  have hcons : list_header (lenL xs) ++ dumpsL (dictifyL xs)
      = 155 :: (toBytesBE 8 (lenL xs) ++ dumpsL (dictifyL xs)) := by
    simp [list_header, MAJOR_TYPE_ARRAY, INFO_NEXT_8_BYTES]
  rw [hcons, decodeTop]
  rw [if_pos (by norm_num : (155 : Nat) / 32 = 4)]
  have hra : readArg (155 % 32)
        (toBytesBE 8 (lenL xs) ++ dumpsL (dictifyL xs))
      = some (lenL xs, dumpsL (dictifyL xs)) := by
    have := readArg_w8 (toBytesBE 8 (lenL xs)) (dumpsL (dictifyL xs))
      (toBytesBE_length 8 (lenL xs))
    rw [fromBytesBE_toBytesBE 8 (lenL xs) (by simpa using hlen)] at this
    simpa using this
  rw [hra]
  have hfuel : nodesL (dictifyL xs)
      ≤ 2 * ((155 : Nat)
          :: (toBytesBE 8 (lenL xs) ++ dumpsL (dictifyL xs))).length := by
    have h1 := nodesL_le (dictifyL xs) hnsy
    simp only [List.length_cons, List.length_append]
    omega
  have hdec := (decode_dumps (2 * ((155 : Nat)
      :: (toBytesBE 8 (lenL xs) ++ dumpsL (dictifyL xs))).length)).2.1
    (dictifyL xs) [] hwfy hnsy hfuel
  rw [List.append_nil, hleny] at hdec
  simp only [List.length_cons, List.length_append] at hdec
  simp [hdec, canonL]

theorem read_write_list (xs : PyList) (hwf : wfL xs = true)
    (hlen : lenL xs < 2 ^ 64) :
    read_cbor_file (write_list xs) = .plist (some (canonL xs)) := by
  have hsplit : write_list xs
      = list_header (lenL xs) ++ dumpsL (dictifyL xs) := rfl
  have htake : (write_list xs).take 128
      = list_header (lenL xs) ++ ((dumpsL (dictifyL xs)).take 119) := by
    rw [hsplit, List.take_append_eq_append_take,
      List.take_of_length_le (by rw [list_header_length]; norm_num),
      list_header_length]
  have hparse : parse_list ((write_list xs).take 128) = .ok (lenL xs) := by
    rw [htake]
    exact parse_list_of_header (lenL xs) _ hlen
  have hdrop : (write_list xs).drop 9 = dumpsL (dictifyL xs) := by
    rw [hsplit]
    exact List.drop_left' (list_header_length (lenL xs))
  rw [read_cbor_file, hparse, hdrop]
  exact congrArg ReadResult.plist (decodeTop_write xs hwf hlen)

theorem persistent_list_extend_eq (xs batch : PyList) :
    persistent_list_extend (write_list xs) (lenL xs) batch
      = write_list (pyAppend xs batch) := by
  rw [persistent_list_extend, write_list, write_list]
  have hassoc : list_header (lenL xs) ++ dumpsL (dictifyL xs)
      ++ dumpsL (dictifyL batch)
      = list_header (lenL xs)
        ++ (dumpsL (dictifyL xs) ++ dumpsL (dictifyL batch)) := by
    simp [List.append_assoc]
  rw [hassoc, List.drop_left' (list_header_length (lenL xs)),
    lenL_append, dictifyL_append, dumpsL_append]


/-! ## Multidim-array-file roundtrip -/

theorem except_bind_ok {ε α β : Type} (a : α) (f : α → Except ε β) :
    (Except.ok a >>= f : Except ε β) = f a := rfl

theorem except_bind_err {ε α β : Type} (e : ε) (f : α → Except ε β) :
    (Except.error e >>= f : Except ε β) = Except.error e := rfl

theorem dimEnc_length (n : Nat) : (dimEnc n).length = 9 := by
  simp [dimEnc, toBytesBE_length]

theorem dimEnc_flatten_length (shape : List Nat) :
    ((shape.map dimEnc).flatten).length = 9 * shape.length := by
  induction shape with
  | nil => simp
  | cons d ds ih => simp [ih, dimEnc_length]; ring

theorem ndarray_header_length (shape : List Nat) (d : String) :
    (ndarray_header shape d).length = 15 + 9 * shape.length := by
  simp only [ndarray_header, List.length_append, List.length_cons,
    List.length_nil, dimEnc_flatten_length, toBytesBE_length]
  ring

theorem dtype_tag_roundtrip :
    ∀ d ∈ registeredDtypes, dtypeOfTag ((tagOfDtype d).getD 0) = some d := by
  decide

/-- Stepping lemma for the shape-reading loop of `parse_ndarray`. -/
theorem parse_shape_spec (ds : List Nat) :
    ∀ (i : Nat) (pre rest buf : List Nat),
    buf = pre ++ ((ds.map dimEnc).flatten ++ rest) →
    pre.length = 4 + 9 * i →
    (∀ d ∈ ds, d < 2 ^ 64) →
    parse_shape buf ds.length i (4 + 9 * i)
      = .ok (4 + 9 * i + 9 * ds.length, ds) := by
  induction ds with
  | nil =>
    intro i pre rest buf _ _ _
    simp [parse_shape]
  | cons d ds ih =>
    intro i pre rest buf hbuf hpre hds
    have hd64 : d < 2 ^ 64 := hds d (by simp)
    have hdrop : buf.drop (4 + 9 * i)
        = 27 :: (toBytesBE 8 d ++ ((ds.map dimEnc).flatten ++ rest)) := by
      rw [hbuf, ← hpre, List.drop_left]
      simp [dimEnc, MAJOR_TYPE_UINT, INFO_NEXT_8_BYTES, List.append_assoc]
    have htok := @parse_token_next8 buf (4 + 9 * i) 27 MAJOR_TYPE_UINT
      (toBytesBE 8 d ++ ((ds.map dimEnc).flatten ++ rest)) hdrop
      (by decide) (by decide)
    rw [List.take_left' (toBytesBE_length 8 d),
      fromBytesBE_toBytesBE 8 d (by simpa using hd64)] at htok
    have hrec := ih (i + 1) (pre ++ dimEnc d) rest buf
      (by rw [hbuf]; simp [List.append_assoc])
      (by rw [List.length_append, hpre, dimEnc_length]; ring)
      (fun x hx => hds x (by simp [hx]))
    have hpos : 4 + 9 * i + 9 = 4 + 9 * (i + 1) := by ring
    rw [hpos] at htok
    rw [List.length_cons, parse_shape, htok, except_bind_ok]
    simp only [bne_self_eq_false, fail_if, if_neg, Bool.false_eq_true,
      not_false_eq_true, except_bind_ok, hrec]
    have harith : 4 + 9 * (i + 1) + 9 * ds.length
        = 4 + 9 * i + 9 * (ds.length + 1) := by ring
    rw [harith]
    rfl

/-- The multidim-array header parse succeeds on a buffer that begins with
`ndarray_header shape d`, recovering exactly the shape and dtype. -/
theorem parse_ndarray_of_header (shape : List Nat) (d : String)
    (rest : List Nat) (hd : d ∈ registeredDtypes) (hnd : shape.length ≤ 12)
    (hdims : ∀ x ∈ shape, x < 2 ^ 64)
    (hnb : shapeProd shape * itemsize d < 2 ^ 64) :
    parse_ndarray (ndarray_header shape d ++ rest) = .ok (shape, d) := by
  set ndim := shape.length with hndim
  set flat := (shape.map dimEnc).flatten with hflat
  set dtag := (tagOfDtype d).getD 0 with hdtag
  set nb := shapeProd shape * itemsize d with hnbdef
  set buf := ndarray_header shape d ++ rest with hbufdef
  obtain ⟨hor, _, _⟩ := byte_split_or ndim (by omega)
  have hH : buf = 216 :: 40 :: 130 :: ((128 + ndim)
      :: (flat ++ (216 :: dtag :: 91 :: (toBytesBE 8 nb ++ rest)))) := by
    rw [hbufdef, ndarray_header, ← hflat, ← hdtag, ← hnbdef, ← hndim]
    simp [MAJOR_TYPE_TAG, MAJOR_TYPE_ARRAY, MAJOR_TYPE_BYTE_STRING,
      INFO_NEXT_BYTE, INFO_NEXT_8_BYTES, TAG_MULTIDIM_ARRAY, hor,
      List.append_assoc]
  -- Token 1: the multidim-array tag marker.
  have hd0 : buf.drop 0 = 216 :: (40 :: 130 :: ((128 + ndim)
      :: (flat ++ (216 :: dtag :: 91 :: (toBytesBE 8 nb ++ rest))))) := by
    rw [hH]; rfl
  have ht1 := @parse_token_next1 buf 0 216 MAJOR_TYPE_TAG _ hd0
    (by decide) (by decide)
  have ht1' : parse_token buf 0 MAJOR_TYPE_TAG = .ok (2, 40) := by
    rw [ht1]; rfl
  -- Token 2: the length-2 array envelope.
  have hd2 : buf.drop 2 = 130 :: ((128 + ndim)
      :: (flat ++ (216 :: dtag :: 91 :: (toBytesBE 8 nb ++ rest)))) := by
    rw [hH]; rfl
  have ht2 := @parse_token_small buf 2 130 MAJOR_TYPE_ARRAY _ hd2
    (by decide) (by decide)
  -- Token 3: the shape array with `ndim` entries.
  have hd3 : buf.drop 3 = (128 + ndim)
      :: (flat ++ (216 :: dtag :: 91 :: (toBytesBE 8 nb ++ rest))) := by
    rw [hH]; rfl
  have hmaj3 : (128 + ndim) &&& 0xE0 = MAJOR_TYPE_ARRAY :=
    (byte_split_or ndim (by omega)).2.1
  have hinfo3 : (128 + ndim) &&& 0x1F = ndim :=
    (byte_split_or ndim (by omega)).2.2
  have ht3 := @parse_token_small buf 3 (128 + ndim) MAJOR_TYPE_ARRAY _ hd3
    hmaj3 (by rw [hinfo3]; omega)
  rw [hinfo3] at ht3
  -- The shape loop.
  have hshape := parse_shape_spec shape 0 [216, 40, 130, 128 + ndim]
    (216 :: dtag :: 91 :: (toBytesBE 8 nb ++ rest)) buf
    (by rw [hH]; simp [← hflat]) (by simp) hdims
  -- Token 4: the dtype tag.
  have hd4 : buf.drop (4 + 9 * ndim)
      = 216 :: (dtag :: 91 :: (toBytesBE 8 nb ++ rest)) := by
    have hlen : ([216, 40, 130, 128 + ndim] ++ flat).length = 4 + 9 * ndim := by
      simp only [List.length_append, List.length_cons, List.length_nil,
        hflat, dimEnc_flatten_length, ← hndim]
    have hb2 : buf = ([216, 40, 130, 128 + ndim] ++ flat)
        ++ (216 :: dtag :: 91 :: (toBytesBE 8 nb ++ rest)) := by
      rw [hH]; simp [List.append_assoc]
    rw [hb2, List.drop_left' hlen]
  have ht4 := @parse_token_next1 buf (4 + 9 * ndim) 216 MAJOR_TYPE_TAG _ hd4
    (by decide) (by decide)
  have ht4' : parse_token buf (4 + 9 * ndim) MAJOR_TYPE_TAG
      = .ok (4 + 9 * ndim + 2, dtag) := by
    rw [ht4]
    simp [fromBytesBE]
  -- Token 5: the payload byte string.
  have hd6 : buf.drop (6 + 9 * ndim) = 91 :: (toBytesBE 8 nb ++ rest) := by
    have hlen : ([216, 40, 130, 128 + ndim] ++ flat ++ [216, dtag]).length
        = 6 + 9 * ndim := by
      simp only [List.length_append, List.length_cons, List.length_nil,
        hflat, dimEnc_flatten_length, ← hndim]
      omega
    have hb2 : buf = ([216, 40, 130, 128 + ndim] ++ flat ++ [216, dtag])
        ++ (91 :: (toBytesBE 8 nb ++ rest)) := by
      rw [hH]; simp [List.append_assoc]
    rw [hb2, List.drop_left' hlen]
  have ht6 := @parse_token_next8 buf (6 + 9 * ndim) 91 MAJOR_TYPE_BYTE_STRING
    _ hd6 (by decide) (by decide)
  rw [List.take_left' (toBytesBE_length 8 nb),
    fromBytesBE_toBytesBE 8 nb (by simpa using hnb)] at ht6
  -- Assemble the walk.
  have hfail3 : fail_if (((4:Nat) != 4) || (decide (ndim > 12))) = .ok () := by
    have hn12 : decide (ndim > 12) = false := by
      simp
      omega
    rw [hn12]
    rfl
  have hroundtrip := dtype_tag_roundtrip d hd
  rw [← hdtag] at hroundtrip
  have h62 : 4 + 9 * ndim + 2 = 6 + 9 * ndim := by ring
  rw [h62] at ht4'
  rw [parse_ndarray, ht1', except_bind_ok]
  simp only [bne_self_eq_false, Bool.false_or, fail_if, if_neg,
    Bool.false_eq_true, not_false_eq_true, except_bind_ok, ht2, ht3, hfail3,
    hshape, ht4', ht6, hroundtrip]
  have h12 : decide (ndim > 12) = false := by
    simp
    omega
  have h159 : 6 + 9 * ndim + 9 = 15 + 9 * ndim := by ring
  simp only [Option.getD_some, Option.isNone_some, h159, ← hnbdef,
    bne_self_eq_false, Nat.reduceAnd, h12, Bool.or_self, Bool.false_eq_true,
    if_false]
  rfl

/-- Roundtrip for the multidim-array form: reading back a file written by
`write_ndarray` yields the original shape, dtype and payload bytes. -/
theorem read_write_ndarray (shape : List Nat) (d : String) (payload : List Nat)
    (hd : d ∈ registeredDtypes) (hnd : shape.length ≤ 12)
    (hdims : ∀ x ∈ shape, x < 2 ^ 64)
    (hnb : shapeProd shape * itemsize d < 2 ^ 64)
    (hp : payload.length = shapeProd shape * itemsize d) :
    read_cbor_file (write_ndarray shape d payload) = .parray shape d payload := by
  have hHlen := ndarray_header_length shape d
  have hHle : (ndarray_header shape d).length ≤ 128 := by
    rw [hHlen]
    omega
  have htake : (write_ndarray shape d payload).take 128
      = ndarray_header shape d
        ++ payload.take (128 - (ndarray_header shape d).length) := by
    rw [write_ndarray, List.take_append_eq_append_take,
      List.take_of_length_le hHle]
  have hget : ((write_ndarray shape d payload).take 128).get? 0 = some 216 := by
    rw [htake, ndarray_header]
    rfl
  have hplist : parse_list ((write_ndarray shape d payload).take 128)
      = .error .valueError :=
    parse_list_wrong_major hget (by decide)
  have hpnd : parse_ndarray ((write_ndarray shape d payload).take 128)
      = .ok (shape, d) := by
    rw [htake]
    exact parse_ndarray_of_header shape d _ hd hnd hdims hnb
  have hflen : (write_ndarray shape d payload).length
      = 15 + 9 * shape.length + payload.length := by
    rw [write_ndarray, List.length_append, hHlen]
  have hsize : data_offset shape.length + shapeProd shape * itemsize d
      ≤ (write_ndarray shape d payload).length := by
    rw [hflen, data_offset, hp]
  have hdropP : (write_ndarray shape d payload).drop (data_offset shape.length)
      = payload := by
    rw [write_ndarray]
    exact List.drop_left' (by rw [hHlen, data_offset])
  have htakeP : payload.take (shapeProd shape * itemsize d) = payload := by
    rw [← hp, List.take_length]
  rw [read_cbor_file, hplist, hpnd]
  simp [hsize, hdropP, htakeP]

/-- C4 counterexample to the claimed equality `decode(encode(v)) == v`:
a list holding one dictionary element round-trips to a list holding a
`Namespace` with the same entries — the reader wraps `cbor2.loads` in
`namespacify`, which turns every decoded mapping into a namespace — and
a namespace is not equal to the original dictionary. -/
theorem c4_codec_roundtrip_counterexample :
    read_cbor_file (write_object_as_cbor (.lst
        (.cons (.pdict (.cons [97] (.pint 1) .nil)) .nil)))
      = .plist (some (.cons (.pnamespace (.cons [97] (.pint 1) .nil)) .nil))
    ∧ PyVal.pnamespace (.cons [97] (.pint 1) .nil)
        ≠ PyVal.pdict (.cons [97] (.pint 1) .nil) := by
  refine ⟨rfl, fun h => ?_⟩
  exact PyVal.noConfusion h

/-- C4 (amended). Codec round-trip up to canonicalization: every value
encodable in the indefinite-list form (elements may be null, booleans,
integers of any magnitude, floats, text, byte strings, nested sequences,
string-keyed maps and namespace-like objects) is decoded back by
`read_cbor_file` as `namespacify (dictify v)` element-wise: mappings come
back as namespaces and private namespace fields are dropped, and the
round-trip is exactly the identity on values already of that canonical
shape; a 0–12-dimensional array with a registered dtype round-trips
shape-, dtype- and payload-preserving. -/
theorem c4_codec_roundtrip (xs : PyList) (shape : List Nat) (d : String)
    (payload : List Nat)
    (hwf : wfL xs = true) (hxlen : lenL xs < 2 ^ 64)
    (hd : d ∈ registeredDtypes) (hnd : shape.length ≤ 12)
    (hdims : ∀ x ∈ shape, x < 2 ^ 64)
    (hnb : shapeProd shape * itemsize d < 2 ^ 64)
    (hp : payload.length = shapeProd shape * itemsize d) :
    read_cbor_file (write_object_as_cbor (.lst xs))
        = .plist (some (canonL xs))
    ∧ (isCanonL xs = true → canonL xs = xs)
    ∧ read_cbor_file (write_object_as_cbor (.arr shape d payload))
        = .parray shape d payload :=
  ⟨read_write_list xs hwf hxlen, canonL_eq xs,
    read_write_ndarray shape d payload hd hnd hdims hnb hp⟩

set_option maxRecDepth 40000 in
/-- Witness for C4 at concrete inputs: a canonical ten-element list
exercising every encodable element kind — null, boolean, small and
negative integers, a bignum beyond 64 bits, a float bit pattern, text,
bytes, a nested list and a namespace — round-trips to itself, and a 2×3
little-endian-float32 array round-trips exactly. -/
theorem c4_codec_roundtrip_witness :
    read_cbor_file (write_object_as_cbor (.lst
        (.cons .pnull (.cons (.pbool true) (.cons (.pint 5)
          (.cons (.pint (-7)) (.cons (.pint (2 ^ 70))
            (.cons (.pfloat 4614256656552045848)
              (.cons (.pstr [104, 105])
                (.cons (.pbytes [0, 255])
                  (.cons (.plist (.cons (.pint 1) .nil))
                    (.cons (.pnamespace
                        (.cons [98] (.pstr [120]) .nil))
                      .nil))))))))))))
      = .plist (some
          (.cons .pnull (.cons (.pbool true) (.cons (.pint 5)
            (.cons (.pint (-7)) (.cons (.pint (2 ^ 70))
              (.cons (.pfloat 4614256656552045848)
                (.cons (.pstr [104, 105])
                  (.cons (.pbytes [0, 255])
                    (.cons (.plist (.cons (.pint 1) .nil))
                      (.cons (.pnamespace
                          (.cons [98] (.pstr [120]) .nil))
                        .nil)))))))))))
    ∧ read_cbor_file (write_object_as_cbor
        (.arr [2, 3] "<f4" (List.replicate 24 7)))
      = .parray [2, 3] "<f4" (List.replicate 24 7) := by
  have h := c4_codec_roundtrip
    (.cons .pnull (.cons (.pbool true) (.cons (.pint 5)
      (.cons (.pint (-7)) (.cons (.pint (2 ^ 70))
        (.cons (.pfloat 4614256656552045848)
          (.cons (.pstr [104, 105])
            (.cons (.pbytes [0, 255])
              (.cons (.plist (.cons (.pint 1) .nil))
                (.cons (.pnamespace (.cons [98] (.pstr [120]) .nil))
                  .nil))))))))))
    [2, 3] "<f4" (List.replicate 24 7)
    (by rfl) (by decide) (by decide) (by decide) (by decide) (by decide)
    (by decide)
  exact ⟨by rw [h.1, h.2.1 (by rfl)], h.2.2⟩

/-- Decidable equality for `Except` results, used to settle concrete parse
outcomes by evaluation. -/
instance {e a : Type} [DecidableEq e] [DecidableEq a] :
    DecidableEq (Except e a) := fun x y =>
  match x, y with
  | .ok v, .ok w => decidable_of_iff (v = w) (by simp)
  | .ok _, .error _ => isFalse (by simp)
  | .error _, .ok _ => isFalse (by simp)
  | .error v, .error w => decidable_of_iff (v = w) (by simp)

/-! ## Growable-container lemmas -/

theorem foldl_mul_shift (l : List Nat) (a : Nat) :
    l.foldl (· * ·) a = a * l.foldl (· * ·) 1 := by
  induction l generalizing a with
  | nil => simp
  | cons x xs ih =>
    rw [List.foldl_cons, List.foldl_cons, ih (a * x), ih (1 * x)]
    ring

theorem shapeProd_cons (a : Nat) (tl : List Nat) :
    shapeProd (a :: tl) = a * shapeProd tl := by
  rw [shapeProd, shapeProd, List.foldl_cons, foldl_mul_shift]
  ring


/-- Extending an array file appends the raw rows and rewrites the header
with the grown leading dimension: at the byte level the result is exactly
the file `write_ndarray` would produce for the concatenation. -/
theorem persistent_array_extend_eq (n0 k : Nat) (tl : List Nat) (d : String)
    (p b : List Nat) :
    persistent_array_extend (write_ndarray (n0 :: tl) d p) (n0 :: tl) d
        (k :: tl) b
      = .ok (write_ndarray ((n0 + k) :: tl) d (p ++ b), (n0 + k) :: tl) := by
  rw [persistent_array_extend]
  rw [if_neg (by simp), if_neg (by simp), if_neg (by simp)]
  simp only [List.headD_cons, List.tail_cons]
  have hlen : (ndarray_header (n0 :: tl) d).length
      = (ndarray_header ((n0 + k) :: tl) d).length := by
    rw [ndarray_header_length, ndarray_header_length]
    simp
  have hassoc : write_ndarray (n0 :: tl) d p ++ b
      = ndarray_header (n0 :: tl) d ++ (p ++ b) := by
    rw [write_ndarray, List.append_assoc]
  rw [hassoc, ← hlen, List.drop_left' rfl]
  rfl

/-- C5. Append monotonicity for Growable Lists and Growable Arrays: for
any list of encodable elements, `extend(batch)` produces byte-for-byte
the file the writer would produce for the concatenation, so the old
payload bytes are unchanged at their original offsets, the decoded
length is the old length plus the batch length, and the decoded value is
the canonicalized concatenation; for arrays the raw rows are appended
and in particular a float32 array of rows of shape (3,) extended by 10
rows and then 5 more decodes to the concatenation with shape (15,3) (the
witness instantiates that concrete scenario). -/
theorem c5_append_monotonic (xs batch : PyList) (n0 k : Nat)
    (tl : List Nat) (d : String) (p b : List Nat)
    (hwfx : wfL xs = true) (hwfb : wfL batch = true)
    (hlen : lenL xs + lenL batch < 2 ^ 64)
    (hd : d ∈ registeredDtypes) (hnd : tl.length + 1 ≤ 12)
    (hdims : ∀ x ∈ (n0 + k) :: tl, x < 2 ^ 64)
    (hnb : shapeProd ((n0 + k) :: tl) * itemsize d < 2 ^ 64)
    (hp : p.length = shapeProd (n0 :: tl) * itemsize d)
    (hb : b.length = shapeProd (k :: tl) * itemsize d) :
    persistent_list_extend (write_list xs) (lenL xs) batch
      = write_list (pyAppend xs batch)
    ∧ read_cbor_file (write_list (pyAppend xs batch))
        = .plist (some (canonL (pyAppend xs batch)))
    ∧ lenL (canonL (pyAppend xs batch)) = lenL xs + lenL batch
    ∧ ((write_list (pyAppend xs batch)).drop 9).take
          (dumpsL (dictifyL xs)).length
        = dumpsL (dictifyL xs)
    ∧ persistent_array_extend (write_ndarray (n0 :: tl) d p) (n0 :: tl) d
        (k :: tl) b
      = .ok (write_ndarray ((n0 + k) :: tl) d (p ++ b), (n0 + k) :: tl)
    ∧ read_cbor_file (write_ndarray ((n0 + k) :: tl) d (p ++ b))
        = .parray ((n0 + k) :: tl) d (p ++ b) := by
  have hwfa : wfL (pyAppend xs batch) = true :=
    wfL_append xs batch hwfx hwfb
  have hlena : lenL (pyAppend xs batch) < 2 ^ 64 := by
    rw [lenL_append]
    exact hlen
  have hpb : (p ++ b).length = shapeProd ((n0 + k) :: tl) * itemsize d := by
    rw [List.length_append, hp, hb, shapeProd_cons, shapeProd_cons,
      shapeProd_cons]
    ring
  refine ⟨persistent_list_extend_eq xs batch,
    read_write_list _ hwfa hlena, ?_, ?_,
    persistent_array_extend_eq n0 k tl d p b,
    read_write_ndarray ((n0 + k) :: tl) d (p ++ b) hd
      (by simpa using hnd) hdims hnb hpb⟩
  · rw [lenL_canonL, lenL_append]
  · have hdropB : (write_list (pyAppend xs batch)).drop 9
        = dumpsL (dictifyL xs) ++ dumpsL (dictifyL batch) := by
      rw [write_list, dictifyL_append, dumpsL_append]
      exact List.drop_left' (list_header_length _)
    rw [hdropB, List.take_left' rfl]

/-- Witness for C5: the spec's concrete scenario — a float32 array of
(3,)-rows extended by 10 rows then 5 more ends with shape (15,3), dtype
float32, payload equal to the concatenation of the two batches — plus a
concrete list extension whose batch holds a namespace element. -/
theorem c5_append_monotonic_witness :
    persistent_array_extend (write_ndarray [0, 3] "<f4" []) [0, 3] "<f4"
        [10, 3] (List.replicate 120 1)
      = .ok (write_ndarray [10, 3] "<f4" (List.replicate 120 1), [10, 3])
    ∧ persistent_array_extend
        (write_ndarray [10, 3] "<f4" (List.replicate 120 1)) [10, 3] "<f4"
        [5, 3] (List.replicate 60 2)
      = .ok (write_ndarray [15, 3] "<f4"
          (List.replicate 120 1 ++ List.replicate 60 2), [15, 3])
    ∧ read_cbor_file (write_ndarray [15, 3] "<f4"
          (List.replicate 120 1 ++ List.replicate 60 2))
      = .parray [15, 3] "<f4" (List.replicate 120 1 ++ List.replicate 60 2)
    ∧ persistent_list_extend (write_list (.cons (.pint 5) .nil)) 1
        (.cons (.pnamespace (.cons [98] (.pint 7) .nil)) .nil)
      = write_list (.cons (.pint 5)
          (.cons (.pnamespace (.cons [98] (.pint 7) .nil)) .nil))
    ∧ read_cbor_file (write_list (.cons (.pint 5)
          (.cons (.pnamespace (.cons [98] (.pint 7) .nil)) .nil)))
      = .plist (some (.cons (.pint 5)
          (.cons (.pnamespace (.cons [98] (.pint 7) .nil)) .nil))) := by
  have h1 := c5_append_monotonic .nil .nil 0 10 [3] "<f4" []
    (List.replicate 120 1)
    (by rfl) (by rfl) (by decide) (by decide) (by decide) (by decide)
    (by decide) (by decide) (by decide)
  have h2 := c5_append_monotonic (.cons (.pint 5) .nil)
    (.cons (.pnamespace (.cons [98] (.pint 7) .nil)) .nil) 10 5 [3] "<f4"
    (List.replicate 120 1) (List.replicate 60 2)
    (by rfl) (by rfl) (by decide) (by decide) (by decide) (by decide)
    (by decide) (by decide) (by decide)
  refine ⟨?_, ?_, ?_, ?_, ?_⟩
  · simpa using h1.2.2.2.2.1
  · simpa using h2.2.2.2.2.1
  · simpa using h2.2.2.2.2.2
  · simpa using h2.1
  · have h := h2.2.1
    simpa using h

/-- C6. Decoding dispatch order: the reader first attempts the
indefinite-list header parse, then the multidim-array header parse, then
falls back to fully generic decoding; a header parse rejects a structural
mismatch (wrong major type, or reading past the buffer) by signalling a
recoverable condition (`PErr`), which the reader handles by trying the
next candidate — never a hard failure (`read_cbor_file` is total). -/
theorem c6_dispatch_order (file : List Nat) :
    (∀ n, parse_list (file.take 128) = .ok n →
      read_cbor_file file = .plist (decodeTop (list_header n ++ file.drop 9)))
    ∧ (∀ e shape d, parse_list (file.take 128) = .error e →
        parse_ndarray (file.take 128) = .ok (shape, d) →
        data_offset shape.length + shapeProd shape * itemsize d
          ≤ file.length →
        read_cbor_file file = .parray shape d
          ((file.drop (data_offset shape.length)).take
            (shapeProd shape * itemsize d)))
    ∧ (∀ e e2, parse_list (file.take 128) = .error e →
        parse_ndarray (file.take 128) = .error e2 →
        read_cbor_file file = .generic (loadsAny file))
    ∧ (∀ pos m b, file.get? pos = some b → b &&& 0xE0 ≠ m →
        parse_token file pos m = .error .valueError)
    ∧ (∀ pos m, file.get? pos = none →
        parse_token file pos m = .error .indexError) := by
  refine ⟨?_, ?_, ?_, ?_, ?_⟩
  · intro n h
    rw [read_cbor_file, h]
  · intro e shape d h1 h2 hsize
    rw [read_cbor_file, h1, h2]
    simp [hsize]
  · intro e e2 h1 h2
    rw [read_cbor_file, h1, h2]
  · intro pos m b h hmaj
    exact parse_token_wrong_major h hmaj
  · intro pos m h
    exact parse_token_oob h

/-- Witness for C6: each dispatch arm exercised at a concrete file — a
list file, an array file, and a single-byte generic file — plus the two
recoverable rejection modes of `parse_token`. -/
theorem c6_dispatch_order_witness :
    read_cbor_file (write_list (.cons (.pint 5) .nil))
      = .plist (decodeTop
          (list_header 1 ++ (write_list (.cons (.pint 5) .nil)).drop 9))
    ∧ read_cbor_file (write_ndarray [2] "u1" [9, 9])
      = .parray [2] "u1"
          (((write_ndarray [2] "u1" [9, 9]).drop (data_offset 1)).take
            (shapeProd [2] * itemsize "u1"))
    ∧ read_cbor_file [246] = .generic (loadsAny [246])
    ∧ parse_token [246] 0 MAJOR_TYPE_ARRAY = .error .valueError
    ∧ parse_token [] 0 MAJOR_TYPE_ARRAY = .error .indexError := by
  refine ⟨(c6_dispatch_order _).1 1 (by decide), ?_,
    (c6_dispatch_order _).2.2.1 PErr.valueError PErr.valueError
      (by decide) (by decide),
    (c6_dispatch_order _).2.2.2.1 0 MAJOR_TYPE_ARRAY 246 (by decide)
      (by decide),
    (c6_dispatch_order _).2.2.2.2 0 MAJOR_TYPE_ARRAY (by decide)⟩
  have h := (c6_dispatch_order (write_ndarray [2] "u1" [9, 9])).2.1
    PErr.valueError [2] "u1" (by decide) (by decide) (by decide)
  simpa using h

/-- C7. Growable Array extend preconditions: `extend` raises an error if
and only if the array is 0-dimensional, or the incoming data coerces to a
0-dimensional (scalar) array, or the trailing dimensions differ; when none
of these hold the extend proceeds without error. -/
theorem c7_extend_preconditions (file shape : List Nat) (d : String)
    (itemsShape itemsBytes : List Nat) :
    (∃ e, persistent_array_extend file shape d itemsShape itemsBytes
        = .error e)
      ↔ (shape = [] ∨ itemsShape = [] ∨ itemsShape.tail ≠ shape.tail) := by
  rw [persistent_array_extend]
  split_ifs with h1 h2 h3
  · simp [List.length_eq_zero.mp h1]
  · simp [List.length_eq_zero.mp h2]
  · simp [h3]
  · have hs : ¬ shape = [] := fun h => h1 (by simp [h])
    have hi : ¬ itemsShape = [] := fun h => h2 (by simp [h])
    simp [hs, hi, h3]

/-! ## The artifact store (source: `_artifacts.py`)

The filesystem under the active root is modelled as a flat store of
directories in listing order; each directory carries the result
`DirIndex.get_meta` would report for it (absent `_meta_.json`, malformed
metadata, or a valid metadata dictionary). Generated artifact paths
`root / (spec type name)_(hex counter)` are modelled by the `genP`
constructor (the zero-padded hex rendering of the counter is injective,
so the pair faithfully stands for the path string); explicit `_path_`
overrides are `explicitP` paths. Event timestamps are irrelevant to every
claim settled here and are omitted. -/

inductive APath where
  | explicitP (s : String)
  | genP (typeName : String) (i : Nat)
deriving DecidableEq, Repr

inductive EType where
  | start
  | success
  | failure
deriving DecidableEq, Repr

/-- One entry of the metadata event log (`type` plus the optional
`message` recorded for failures; the timestamp is omitted). -/
structure Event where
  etype : EType
  message : Option String
deriving DecidableEq, Repr

/-- The canonical spec dictionary `dictify((type: cls, **vars(spec)))`:
the registered type name plus the canonically encoded fields. Two specs
match exactly when these are equal. -/
structure SpecD where
  typeName : String
  fields : List (String × String)
deriving DecidableEq, Repr

/-- The parsed `_meta_.json` contents. -/
structure Meta where
  spec : SpecD
  events : List Event
deriving DecidableEq, Repr

/-- What `DirIndex.get_meta` reports for an existing directory. -/
inductive MetaR where
  | absent
  | malformed
  | valid (m : Meta)
deriving DecidableEq, Repr

/-- The store root: every existing directory, in listing order. -/
structure Store where
  dirs : List (APath × MetaR)
deriving DecidableEq, Repr

/-- Metadata lookup at a path (absent directories report nothing). -/
def lookupDir (st : Store) (p : APath) : Option MetaR :=
  (st.dirs.find? (fun e => e.1 == p)).map (fun e => e.2)

/-- Whether a path exists (`mkdir` raises `FileExistsError` for it). -/
def pathExists (st : Store) (p : APath) : Bool :=
  st.dirs.any (fun e => e.1 == p)

/-- The candidate filter of `find_match`: a valid metadata dict whose
`spec` equals the canonical spec and whose event log has no `Failure`. -/
def matchesSpec (specD : SpecD) (e : APath × MetaR) : Bool :=
  match e.2 with
  | .valid m => m.spec == specD && m.events.all (fun ev => ev.etype != .failure)
  | _ => false

/-- Source `find_match`: with an explicit `_path_` only that directory is
examined; otherwise the artifact directories under the root are scanned in
listing order and the first match wins. -/
def find_match (st : Store) (specD : SpecD) (specPath : Option APath) :
    Option APath :=
  match specPath with
  | some p =>
    match lookupDir st p with
    | some mr => if matchesSpec specD (p, mr) then some p else none
    | none => none
  | none => (st.dirs.find? (matchesSpec specD)).map (fun e => e.1)

/-- Creating a directory with fresh metadata `(spec, events: [])`,
appended in listing order. -/
def addDir (st : Store) (p : APath) (specD : SpecD) : Store :=
  ⟨st.dirs ++ [(p, .valid ⟨specD, []⟩)]⟩

/-- The first free generated-path counter: the source iterates
`i = 0, 1, 2, …` until `mkdir` succeeds; since only finitely many paths
exist, scanning `0 … |dirs|` always finds the first free index. -/
def firstFreeIndex (st : Store) (tn : String) : Nat :=
  ((List.range (st.dirs.length + 1)).find?
    (fun i => !(pathExists st (.genP tn i)))).getD (st.dirs.length + 1)

/-- The errors `Artifact.__new__` can propagate: `make_stub`'s
`FileExistsError` for an occupied explicit path, or the builder re-raising
the construction error. -/
inductive BuildErr where
  | incompatible (p : APath)
  | buildFailed (msg : String)
deriving DecidableEq, Repr

/-- Source `make_stub`: with an explicit path, a single `mkdir` attempt
that raises `FileExistsError('Incompatible files exist …')` when the path
exists; otherwise the generated paths are tried in counter order and the
first free one is created with metadata `(spec, events: [])`. -/
def make_stub (st : Store) (specD : SpecD) (specPath : Option APath) :
    Except BuildErr (Store × APath) :=
  match specPath with
  | some p =>
    if pathExists st p then .error (.incompatible p)
    else .ok (addDir st p specD, p)
  | none =>
    let p := APath.genP specD.typeName (firstFreeIndex st specD.typeName)
    .ok (addDir st p specD, p)

/-- Appending one event to a directory's metadata (`meta['events'].append`
followed by the atomic rewrite); `log` reads the JSON file first, so on an
absent or malformed file it would raise instead — those cases are left
unchanged here and never arise in the flows below. -/
def applyEvent (e : Event) : MetaR → MetaR
  | .valid m => .valid ⟨m.spec, m.events ++ [e]⟩
  | .absent => .absent
  | .malformed => .malformed

/-- Source `log`: append one event to the metadata event log at `p`. -/
def log_event (st : Store) (p : APath) (e : Event) : Store :=
  ⟨st.dirs.map (fun entry =>
    if entry.1 = p then (entry.1, applyEvent e entry.2) else entry)⟩

/-- Source `default_builder`: log `Start`, run the user construction logic
(whose outcome is the `initResult` parameter), log `Success` on normal
return or `Failure` carrying the error message, and re-raise the error. -/
def default_builder (st : Store) (p : APath)
    (initResult : Except String Unit) : Store × Except String Unit :=
  let st1 := log_event st p ⟨.start, none⟩
  match initResult with
  | .ok () => (log_event st1 p ⟨.success, none⟩, .ok ())
  | .error msg => (log_event st1 p ⟨.failure, some msg⟩, .error msg)

/-- The outcome of one `Artifact.__new__` call: the store afterwards, the
returned handle's path (or the propagated exception), and whether the
active builder was invoked. -/
structure BuildOutcome where
  store : Store
  result : Except BuildErr APath
  builderInvoked : Bool
deriving DecidableEq, Repr

/-- Source `Artifact.__new__` (resolve-or-build): look for a matching
directory; on a miss create a stub and invoke the active builder
(`default_builder`), propagating any construction error after the
`Failure` event is logged. -/
def resolve_or_build (st : Store) (specD : SpecD) (specPath : Option APath)
    (initResult : Except String Unit) : BuildOutcome :=
  match find_match st specD specPath with
  | some p => ⟨st, .ok p, false⟩
  | none =>
    match make_stub st specD specPath with
    | .error e => ⟨st, .error e, false⟩
    | .ok (st1, p) =>
      let br := default_builder st1 p initResult
      match br.2 with
      | .ok () => ⟨br.1, .ok p, true⟩
      | .error msg => ⟨br.1, .error (.buildFailed msg), true⟩

/-! ## Store lemmas -/

theorem lookupDir_log_event (st : Store) (p : APath) (ev : Event) :
    lookupDir (log_event st p ev) p
      = (lookupDir st p).map (applyEvent ev) := by
  obtain ⟨l⟩ := st
  rw [lookupDir, lookupDir, log_event]
  simp only
  induction l with
  | nil => rfl
  | cons e l ih =>
    by_cases h : e.1 = p
    · rw [List.map_cons, if_pos h, List.find?_cons_of_pos _ (by simp [h]),
        List.find?_cons_of_pos _ (by simp [h])]
      simp
    · rw [List.map_cons, if_neg h, List.find?_cons_of_neg _ (by simp [h]),
        List.find?_cons_of_neg _ (by simp [h])]
      exact ih

theorem find?_none_of_not_exists {st : Store} {p : APath}
    (h : pathExists st p = false) :
    st.dirs.find? (fun e => e.1 == p) = none := by
  rw [pathExists] at h
  rw [List.find?_eq_none]
  intro x hx hb
  have : st.dirs.any (fun e => e.1 == p) = true :=
    List.any_eq_true.mpr ⟨x, hx, hb⟩
  rw [h] at this
  cases this

theorem lookupDir_append_self (st : Store) (p : APath) (mr : MetaR)
    (h : pathExists st p = false) :
    lookupDir ⟨st.dirs ++ [(p, mr)]⟩ p = some mr := by
  rw [lookupDir]
  simp only
  rw [List.find?_append, find?_none_of_not_exists h]
  simp

theorem log_event_append (st : Store) (p : APath) (mr : MetaR) (ev : Event)
    (h : pathExists st p = false) :
    log_event ⟨st.dirs ++ [(p, mr)]⟩ p ev
      = ⟨st.dirs ++ [(p, applyEvent ev mr)]⟩ := by
  rw [log_event]
  congr 1
  simp only
  rw [List.map_append]
  congr 1
  · have hid : ∀ e ∈ st.dirs,
        (if e.1 = p then (e.1, applyEvent ev e.2) else e) = e := by
      intro e he
      have hne : ¬ e.1 = p := by
        intro hep
        have : st.dirs.any (fun x => x.1 == p) = true :=
          List.any_eq_true.mpr ⟨e, he, by simp [hep]⟩
        rw [pathExists] at h
        rw [h] at this
        cases this
      rw [if_neg hne]
    rw [List.map_congr_left hid]
    exact List.map_id' st.dirs
  · simp

theorem firstFreeIndex_free (st : Store) (tn : String) :
    pathExists st (.genP tn (firstFreeIndex st tn)) = false := by
  have hex : ∃ i ∈ List.range (st.dirs.length + 1),
      (!(pathExists st (.genP tn i))) = true := by
    by_contra hall
    push_neg at hall
    have hall2 : ∀ i ∈ List.range (st.dirs.length + 1),
        pathExists st (.genP tn i) = true := by
      intro i hi
      have := hall i hi
      simpa using this
    have hsub : ((List.range (st.dirs.length + 1)).map
        (fun i => APath.genP tn i)) ⊆ st.dirs.map (fun e => e.1) := by
      intro q hq
      rw [List.mem_map] at hq
      obtain ⟨i, hi, rfl⟩ := hq
      obtain ⟨e, he, heq⟩ := List.any_eq_true.mp (hall2 i hi)
      rw [List.mem_map]
      exact ⟨e, he, beq_iff_eq.mp heq⟩
    have hinj : Function.Injective (fun i => APath.genP tn i) := by
      intro a b hab
      injection hab with h1 h2
    have hnd : ((List.range (st.dirs.length + 1)).map
        (fun i => APath.genP tn i)).Nodup :=
      List.Nodup.map hinj (List.nodup_range _)
    have hle := (List.subperm_of_subset hnd hsub).length_le
    simp at hle
  obtain ⟨i, hi, hfree⟩ := hex
  rw [firstFreeIndex]
  cases hfind : (List.range (st.dirs.length + 1)).find?
      (fun i => !(pathExists st (.genP tn i))) with
  | none =>
    rw [List.find?_eq_none] at hfind
    exact absurd hfree (hfind i hi)
  | some j =>
    have := List.find?_some hfind
    simpa using this

theorem resolve_build_success (st : Store) (specD : SpecD)
    (specPath : Option APath) (st1 : Store) (p : APath)
    (h1 : find_match st specD specPath = none)
    (hstub : make_stub st specD specPath = .ok (st1, p)) :
    resolve_or_build st specD specPath (.ok ())
      = ⟨(default_builder st1 p (.ok ())).1, .ok p, true⟩ := by
  rw [resolve_or_build, h1, hstub]
  rfl

theorem built_store (st : Store) (p : APath) (specD : SpecD)
    (hpe : pathExists st p = false) :
    (default_builder (addDir st p specD) p (.ok ())).1
      = ⟨st.dirs ++ [(p, .valid ⟨specD,
          [⟨.start, none⟩, ⟨.success, none⟩]⟩)]⟩ := by
  have h1 := log_event_append st p (.valid ⟨specD, []⟩) ⟨.start, none⟩ hpe
  have h2 := log_event_append st p
    (.valid ⟨specD, [⟨.start, none⟩]⟩) ⟨.success, none⟩ hpe
  rw [default_builder]
  simp only [addDir]
  rw [h1]
  simp only [applyEvent, List.nil_append]
  rw [h2]
  rfl

/-- The freshly built directory is the unique match for its spec on the
next lookup (it carries the spec and a Failure-free event log, and every
earlier directory already failed to match). -/
theorem find_match_after (st : Store) (specD : SpecD) (p : APath)
    (specPath : Option APath)
    (h1 : find_match st specD specPath = none)
    (hpe : pathExists st p = false)
    (hpp : specPath = some p ∨ specPath = none) :
    find_match ⟨st.dirs ++ [(p, .valid ⟨specD,
        [⟨.start, none⟩, ⟨.success, none⟩]⟩)]⟩ specD specPath = some p := by
  have hmatch : matchesSpec specD (p, .valid ⟨specD,
      [⟨Artisan.EType.start, none⟩, ⟨Artisan.EType.success, none⟩]⟩)
      = true := by
    simp [matchesSpec]
  rcases hpp with rfl | rfl
  · rw [find_match, lookupDir_append_self st p _ hpe]
    simp [hmatch]
  · rw [find_match] at h1 ⊢
    have hfnone : st.dirs.find? (matchesSpec specD) = none := by
      cases hf : st.dirs.find? (matchesSpec specD) with
      | none => rfl
      | some e =>
        rw [hf] at h1
        simp at h1
    simp only
    rw [List.find?_append, hfnone, List.find?_cons_of_pos _ hmatch]
    rfl

/-- C1. Build idempotence: when no directory matches the spec and the
first resolve-or-build performs its build successfully, the active builder
runs exactly once in total over two sequential calls, and both calls
return handles to the same directory — the second call finds the first
call's directory through metadata spec equality and its Failure-free event
log. -/
theorem c1_build_idempotence (st : Store) (specD : SpecD)
    (specPath : Option APath)
    (h1 : find_match st specD specPath = none)
    (h2 : (resolve_or_build st specD specPath (.ok ())).builderInvoked
        = true) :
    (resolve_or_build st specD specPath (.ok ())).builderInvoked = true
    ∧ (resolve_or_build
        (resolve_or_build st specD specPath (.ok ())).store specD specPath
        (.ok ())).builderInvoked = false
    ∧ ∃ p, (resolve_or_build st specD specPath (.ok ())).result = .ok p
      ∧ (resolve_or_build
          (resolve_or_build st specD specPath (.ok ())).store specD specPath
          (.ok ())).result = .ok p := by
  have main : ∀ (st1 : Store) (p : APath),
      make_stub st specD specPath = .ok (st1, p) →
      st1 = addDir st p specD →
      pathExists st p = false →
      (specPath = some p ∨ specPath = none) →
      (resolve_or_build st specD specPath (.ok ())).builderInvoked = true
      ∧ (resolve_or_build
          (resolve_or_build st specD specPath (.ok ())).store specD specPath
          (.ok ())).builderInvoked = false
      ∧ ∃ q, (resolve_or_build st specD specPath (.ok ())).result = .ok q
        ∧ (resolve_or_build
            (resolve_or_build st specD specPath (.ok ())).store specD
            specPath (.ok ())).result = .ok q := by
    intro st1 p hstub hst1 hpe hpp
    have ho1 := resolve_build_success st specD specPath st1 p h1 hstub
    have hstore : (resolve_or_build st specD specPath (.ok ())).store
        = ⟨st.dirs ++ [(p, .valid ⟨specD,
            [⟨.start, none⟩, ⟨.success, none⟩]⟩)]⟩ := by
      rw [ho1, hst1]
      exact built_store st p specD hpe
    have hfm2 := find_match_after st specD p specPath h1 hpe hpp
    have ho2 : resolve_or_build
        (resolve_or_build st specD specPath (.ok ())).store specD specPath
        (.ok ())
        = ⟨(resolve_or_build st specD specPath (.ok ())).store, .ok p,
            false⟩ := by
      rw [hstore, resolve_or_build, hfm2]
    refine ⟨by rw [ho1], by rw [ho2], p, by rw [ho1], by rw [ho2]⟩
  cases specPath with
  | none =>
    exact main _ _ rfl rfl
      (firstFreeIndex_free st specD.typeName) (Or.inr rfl)
  | some q =>
    cases hq : pathExists st q with
    | false =>
      have hstub : make_stub st specD (some q)
          = .ok (addDir st q specD, q) := by
        simp only [make_stub]
        rw [if_neg (by simp [hq])]
      exact main _ _ hstub rfl hq (Or.inl rfl)
    | true =>
      have : resolve_or_build st specD (some q) (.ok ())
          = ⟨st, .error (.incompatible q), false⟩ := by
        rw [resolve_or_build, h1]
        simp only [make_stub]
        rw [if_pos (by simp [hq])]
      rw [this] at h2
      cases h2

/-- Witness for C1: resolving the spec (type "A", field n = 2) twice
against an empty store builds once at the first generated path and then
finds that same directory. -/
theorem c1_build_idempotence_witness :
    find_match ⟨[]⟩ ⟨"A", [("n", "2")]⟩ none = none
    ∧ ((resolve_or_build ⟨[]⟩ ⟨"A", [("n", "2")]⟩ none
        (.ok ())).builderInvoked = true
      ∧ (resolve_or_build
          (resolve_or_build ⟨[]⟩ ⟨"A", [("n", "2")]⟩ none (.ok ())).store
          ⟨"A", [("n", "2")]⟩ none (.ok ())).builderInvoked = false
      ∧ ∃ p, (resolve_or_build ⟨[]⟩ ⟨"A", [("n", "2")]⟩ none
            (.ok ())).result = .ok p
        ∧ (resolve_or_build
            (resolve_or_build ⟨[]⟩ ⟨"A", [("n", "2")]⟩ none (.ok ())).store
            ⟨"A", [("n", "2")]⟩ none (.ok ())).result = .ok p) :=
  ⟨by decide, c1_build_idempotence ⟨[]⟩ ⟨"A", [("n", "2")]⟩ none
    (by decide) (by decide)⟩

/-- C3. Builder contract: every invocation of the default builder appends
`Start` on entry; on normal return of the user construction logic it
appends `Success`; on an error it appends `Failure` carrying the error's
message and re-raises the same error to the caller (the result of the
builder equals the construction outcome — the store never swallows build
errors). -/
theorem c3_builder_contract (st : Store) (p : APath) (m : Meta)
    (init : Except String Unit)
    (h : lookupDir st p = some (.valid m)) :
    (init = .ok () →
      lookupDir (default_builder st p init).1 p
        = some (.valid ⟨m.spec,
            m.events ++ [⟨.start, none⟩, ⟨.success, none⟩]⟩))
    ∧ (∀ msg, init = .error msg →
      lookupDir (default_builder st p init).1 p
        = some (.valid ⟨m.spec,
            m.events ++ [⟨.start, none⟩, ⟨.failure, some msg⟩]⟩))
    ∧ (default_builder st p init).2 = init := by
  refine ⟨?_, ?_, ?_⟩
  · rintro rfl
    rw [default_builder]
    simp only
    rw [lookupDir_log_event, lookupDir_log_event, h]
    simp [applyEvent]
  · rintro msg rfl
    rw [default_builder]
    simp only
    rw [lookupDir_log_event, lookupDir_log_event, h]
    simp [applyEvent]
  · cases init with
    | ok u => cases u; rfl
    | error msg => rfl

/-- Witness for C3: the builder contract at a one-directory store, for a
successful build and for a build failing with message "boom". -/
theorem c3_builder_contract_witness :
    (lookupDir (default_builder ⟨[(.explicitP "p",
        .valid ⟨⟨"A", []⟩, []⟩)]⟩ (.explicitP "p") (.ok ())).1
        (.explicitP "p")
      = some (.valid ⟨⟨"A", []⟩,
          [] ++ [⟨.start, none⟩, ⟨.success, none⟩]⟩))
    ∧ (lookupDir (default_builder ⟨[(.explicitP "p",
        .valid ⟨⟨"A", []⟩, []⟩)]⟩ (.explicitP "p") (.error "boom")).1
        (.explicitP "p")
      = some (.valid ⟨⟨"A", []⟩,
          [] ++ [⟨.start, none⟩, ⟨.failure, some "boom"⟩]⟩))
    ∧ (default_builder ⟨[(.explicitP "p", .valid ⟨⟨"A", []⟩, []⟩)]⟩
        (.explicitP "p") (.error "boom")).2 = .error "boom" :=
  ⟨(c3_builder_contract _ _ ⟨⟨"A", []⟩, []⟩ (.ok ()) (by decide)).1 rfl,
   (c3_builder_contract _ _ ⟨⟨"A", []⟩, []⟩ (.error "boom")
      (by decide)).2.1 "boom" rfl,
   (c3_builder_contract _ _ ⟨⟨"A", []⟩, []⟩ (.error "boom")
      (by decide)).2.2⟩

/-! ## Failure isolation (C2) -/

theorem mem_of_lookup {st : Store} {p : APath} {mr : MetaR}
    (h : lookupDir st p = some mr) : (p, mr) ∈ st.dirs := by
  rw [lookupDir] at h
  cases hf : st.dirs.find? (fun e => e.1 == p) with
  | none => rw [hf] at h; cases h
  | some e =>
    rw [hf] at h
    have he2 : e.2 = mr := by simpa using h
    have hb := List.find?_some hf
    have hfst : e.1 = p := by simpa using hb
    have hmem := List.mem_of_find?_eq_some hf
    rw [← hfst, ← he2]
    simpa using hmem

theorem pathExists_of_lookup {st : Store} {p : APath} {mr : MetaR}
    (h : lookupDir st p = some mr) : pathExists st p = true := by
  have hmem := mem_of_lookup h
  rw [pathExists, List.any_eq_true]
  exact ⟨(p, mr), hmem, by simp⟩

theorem nodupKeys_eq {l : List (APath × MetaR)}
    (h : (l.map Prod.fst).Nodup) {e f : APath × MetaR}
    (he : e ∈ l) (hf : f ∈ l) (hfst : e.1 = f.1) : e = f := by
  induction l with
  | nil => cases he
  | cons a l ih =>
    rw [List.map_cons, List.nodup_cons] at h
    rcases List.mem_cons.mp he with rfl | he2
    · rcases List.mem_cons.mp hf with rfl | hf2
      · rfl
      · exact absurd (hfst ▸ List.mem_map_of_mem Prod.fst hf2) h.1
    · rcases List.mem_cons.mp hf with rfl | hf2
      · exact absurd (hfst ▸ List.mem_map_of_mem Prod.fst he2) h.1
      · exact ih h.2 he2 hf2

/-- C2 counterexample: the claim says a failed build's spec triggers a new
build only once the failed directory is removed, otherwise resolve-or-build
raises rather than building. With no explicit path the code instead
allocates the next free generated directory and builds there: on a store
whose only directory is the failed `A_0000`, resolve-or-build with the
same spec invokes the builder and succeeds at `A_0001` while the failed
directory still exists. -/
theorem c2_counterexample :
    (resolve_or_build ⟨[(.genP "A" 0, .valid ⟨⟨"A", []⟩,
        [⟨.start, none⟩, ⟨.failure, some "boom"⟩]⟩)]⟩ ⟨"A", []⟩ none
        (.ok ())).builderInvoked = true
    ∧ (resolve_or_build ⟨[(.genP "A" 0, .valid ⟨⟨"A", []⟩,
        [⟨.start, none⟩, ⟨.failure, some "boom"⟩]⟩)]⟩ ⟨"A", []⟩ none
        (.ok ())).result = .ok (.genP "A" 1)
    ∧ pathExists ⟨[(.genP "A" 0, .valid ⟨⟨"A", []⟩,
        [⟨.start, none⟩, ⟨.failure, some "boom"⟩]⟩)]⟩ (.genP "A" 0)
        = true := by
  decide

/-- C2 (amended). Failure isolation: a directory whose event log contains
a Failure is excluded from every future spec-match lookup. When the spec
carries an explicit path override, a subsequent resolve-or-build with the
same spec reproducibly raises the "incompatible files exist" error without
invoking the builder, and leaves the store unchanged, unless the failed
directory is removed. When the spec has no explicit path, a subsequent
resolve-or-build does not raise: it allocates the next free generated
directory and triggers a new build attempt there, with the failed
directory still in place. -/
theorem c2_failure_isolation_amended (st : Store) (specD : SpecD)
    (p : APath) (m : Meta) (init : Except String Unit)
    (hnodup : (st.dirs.map Prod.fst).Nodup)
    (hp : lookupDir st p = some (.valid m))
    (hfail : ∃ ev ∈ m.events, ev.etype = .failure) :
    (∀ sp, find_match st specD sp ≠ some p)
    ∧ resolve_or_build st specD (some p) init
        = ⟨st, .error (.incompatible p), false⟩
    ∧ (find_match st specD none = none →
        (resolve_or_build st specD none init).builderInvoked = true) := by
  obtain ⟨ev, hev, hevf⟩ := hfail
  have hall : m.events.all (fun e => e.etype != .failure) = false := by
    rw [List.all_eq_false]
    exact ⟨ev, hev, by simp [hevf]⟩
  have hms : matchesSpec specD (p, .valid m) = false := by
    rw [matchesSpec]
    simp [hall]
  have hexcl : ∀ sp, find_match st specD sp ≠ some p := by
    intro sp hcontra
    cases sp with
    | some q =>
      cases hlq : lookupDir st q with
      | none =>
        simp only [find_match, hlq] at hcontra
        cases hcontra
      | some mr =>
        simp only [find_match, hlq] at hcontra
        by_cases hmq : matchesSpec specD (q, mr) = true
        · rw [if_pos hmq] at hcontra
          have hqp : q = p := by simpa using hcontra
          subst hqp
          rw [hp] at hlq
          have : mr = .valid m := by simpa using hlq.symm
          subst this
          rw [hms] at hmq
          cases hmq
        · rw [if_neg hmq] at hcontra
          cases hcontra
    | none =>
      cases hf : st.dirs.find? (matchesSpec specD) with
      | none => simp only [find_match, hf] at hcontra; cases hcontra
      | some e =>
        simp only [find_match, hf] at hcontra
        have hefst : e.1 = p := by simpa using hcontra
        have hmem := List.mem_of_find?_eq_some hf
        have hmemp : (p, MetaR.valid m) ∈ st.dirs := mem_of_lookup hp
        have : e = (p, MetaR.valid m) :=
          nodupKeys_eq hnodup hmem hmemp hefst
        have htrue := List.find?_some hf
        rw [this, hms] at htrue
        cases htrue
  have hfm : find_match st specD (some p) = none := by
    simp only [find_match, hp]
    rw [if_neg (by simp [hms])]
  refine ⟨hexcl, ?_, ?_⟩
  · rw [resolve_or_build, hfm]
    simp only [make_stub]
    rw [if_pos (by simp [pathExists_of_lookup hp])]
  · intro hnm
    rw [resolve_or_build, hnm]
    simp only [make_stub]
    cases init with
    | ok u => cases u; rfl
    | error msg => rfl

/-- Witness for C2 (amended): the failed directory `A_0000` with spec
(type "A") is excluded, an explicit-path retry at it raises without
building, and a generated-path retry builds. -/
theorem c2_failure_isolation_amended_witness :
    (∀ sp, find_match ⟨[(.genP "A" 0, .valid ⟨⟨"A", []⟩,
        [⟨.start, none⟩, ⟨.failure, some "boom"⟩]⟩)]⟩ ⟨"A", []⟩ sp
        ≠ some (.genP "A" 0))
    ∧ resolve_or_build ⟨[(.genP "A" 0, .valid ⟨⟨"A", []⟩,
        [⟨.start, none⟩, ⟨.failure, some "boom"⟩]⟩)]⟩ ⟨"A", []⟩
        (some (.genP "A" 0)) (.ok ())
      = ⟨⟨[(.genP "A" 0, .valid ⟨⟨"A", []⟩,
          [⟨.start, none⟩, ⟨.failure, some "boom"⟩]⟩)]⟩,
          .error (.incompatible (.genP "A" 0)), false⟩
    ∧ (find_match ⟨[(.genP "A" 0, .valid ⟨⟨"A", []⟩,
        [⟨.start, none⟩, ⟨.failure, some "boom"⟩]⟩)]⟩ ⟨"A", []⟩ none
        = none →
      (resolve_or_build ⟨[(.genP "A" 0, .valid ⟨⟨"A", []⟩,
          [⟨.start, none⟩, ⟨.failure, some "boom"⟩]⟩)]⟩ ⟨"A", []⟩ none
          (.ok ())).builderInvoked = true) :=
  c2_failure_isolation_amended
    ⟨[(.genP "A" 0, .valid ⟨⟨"A", []⟩,
        [⟨.start, none⟩, ⟨.failure, some "boom"⟩]⟩)]⟩
    ⟨"A", []⟩ (.genP "A" 0)
    ⟨⟨"A", []⟩, [⟨.start, none⟩, ⟨.failure, some "boom"⟩]⟩ (.ok ())
    (by decide) (by decide) (by decide)

/-! ## The DirIndex registry (source: `_fs_index.py`)

A canonical absolute path (the output of `path.expanduser().resolve()`) is
modelled as the reversed list of its components: the head is the deepest
component and the parent is the tail; `[]` is the filesystem root, whose
parent is itself (`Path('/').parent == Path('/')`, the `path != path.parent`
guard). The weak-value registry `dir_indices` is modelled as the list of
live instances, identified by allocation ids. -/

abbrev CPath := List String

/-- The in-process registry state: the live `DirIndex` instances of
`dir_indices` (id and canonical path) plus the parent-to-child id edges of
the `children` sets; `nextId` models object identity. -/
structure Registry where
  nextId : Nat
  insts : List (Nat × CPath)
  childEdges : List (Nat × Nat)
deriving DecidableEq, Repr

/-- Lookup of `dir_indices[path]`. -/
def lookupPath (r : Registry) (p : CPath) : Option Nat :=
  (r.insts.find? (fun e => e.2 == p)).map (fun e => e.1)

/-- Source `DirIndex.__new__`: return the live instance for the canonical
path when one exists; otherwise construct the parent chain first (for a
non-root path), then register a fresh instance under its path and add it
to its parent's children set. -/
def mkDirIndex : CPath → Registry → Nat × Registry
  | [], r =>
    match lookupPath r [] with
    | some i => (i, r)
    | none =>
      (r.nextId, ⟨r.nextId + 1, r.insts ++ [(r.nextId, [])], r.childEdges⟩)
  | a :: parentP, r =>
    match lookupPath r (a :: parentP) with
    | some i => (i, r)
    | none =>
      let pr := mkDirIndex parentP r
      (pr.2.nextId,
        ⟨pr.2.nextId + 1, pr.2.insts ++ [(pr.2.nextId, a :: parentP)],
          pr.2.childEdges ++ [(pr.1, pr.2.nextId)]⟩)

/-- The tracked children of an instance. -/
def childrenOf (r : Registry) (i : Nat) : List Nat :=
  (r.childEdges.filter (fun e => e.1 == i)).map (fun e => e.2)

/-- The path a live instance is registered under. -/
def pathOfId (r : Registry) (i : Nat) : Option CPath :=
  (r.insts.find? (fun e => e.1 == i)).map (fun e => e.2)

/-- The descendant closure of an instance along `children` edges
(fuel-bounded; the children graph is a forest in the source, so
`childEdges.length` fuel always suffices). -/
def descendantsFrom (r : Registry) : Nat → Nat → List Nat
  | 0, i => [i]
  | fuel + 1, i =>
    i :: ((childrenOf r i).map (descendantsFrom r fuel)).flatten

/-- Source `DirIndex._prune`: drop every `children` edge touching the
pruned subtree. The `dir_indices` registry itself is untouched — an
instance leaves it only when garbage-collected. (Tree-index descendant
sets hold no path-keyed entries and are not modelled.) -/
def pruneDir (r : Registry) (i : Nat) : Registry :=
  let ds := descendantsFrom r r.childEdges.length i
  ⟨r.nextId, r.insts,
    r.childEdges.filter (fun e => !(ds.contains e.1 || ds.contains e.2))⟩

/-- Source `DirIndex._refresh_entry_paths`, restricted to its registry
effect: prune every tracked child whose directory no longer exists
(`fs` lists the directories currently on disk). -/
def refreshEntryPaths (r : Registry) (fs : List CPath) (i : Nat) :
    Registry :=
  ((childrenOf r i).filter (fun c =>
    match pathOfId r c with
    | some q => !(fs.contains q)
    | none => false)).foldl pruneDir r

theorem pruneDir_insts (r : Registry) (i : Nat) :
    (pruneDir r i).insts = r.insts := rfl

theorem foldl_pruneDir_insts (l : List Nat) (r : Registry) :
    ((l.foldl pruneDir r).insts) = r.insts := by
  induction l generalizing r with
  | nil => rfl
  | cons x xs ih => rw [List.foldl_cons, ih, pruneDir_insts]

theorem lookupPath_none {r : Registry} {p : CPath}
    (h : lookupPath r p = none) : ∀ i, (i, p) ∉ r.insts := by
  intro i hmem
  rw [lookupPath] at h
  have hf : r.insts.find? (fun e => e.2 == p) = none := by
    cases hf2 : r.insts.find? (fun e => e.2 == p) with
    | none => rfl
    | some e => rw [hf2] at h; cases h
  rw [List.find?_eq_none] at hf
  exact hf _ hmem (by simp)

theorem mkDirIndex_found {r : Registry} {p : CPath} {i : Nat}
    (h : lookupPath r p = some i) : mkDirIndex p r = (i, r) := by
  cases p with
  | nil => rw [mkDirIndex, h]
  | cons a pp => rw [mkDirIndex, h]

/-- Construction registers only the requested path and its ancestors
(suffixes, in the reversed-component representation). -/
theorem mkDirIndex_paths (p : CPath) (r : Registry) :
    ∀ q i, (i, q) ∈ (mkDirIndex p r).2.insts →
      (∃ j, (j, q) ∈ r.insts) ∨ q.IsSuffix p := by
  induction p with
  | nil =>
    intro q i hmem
    cases hl : lookupPath r [] with
    | some j => rw [mkDirIndex_found hl] at hmem; exact Or.inl ⟨i, hmem⟩
    | none =>
      rw [mkDirIndex, hl] at hmem
      simp only at hmem
      rcases List.mem_append.mp hmem with hm | hm
      · exact Or.inl ⟨i, hm⟩
      · simp at hm
        exact Or.inr (by simp [hm.2])
  | cons a pp ih =>
    intro q i hmem
    cases hl : lookupPath r (a :: pp) with
    | some j => rw [mkDirIndex_found hl] at hmem; exact Or.inl ⟨i, hmem⟩
    | none =>
      rw [mkDirIndex, hl] at hmem
      simp only at hmem
      rcases List.mem_append.mp hmem with hm | hm
      · rcases ih q i hm with h | h
        · exact Or.inl h
        · exact Or.inr (h.trans (List.suffix_cons a pp))
      · simp at hm
        exact Or.inr (by rw [hm.2])

/-- Construction preserves the one-instance-per-path discipline of the
registry. -/
theorem mkDirIndex_nodup (p : CPath) (r : Registry)
    (h : (r.insts.map Prod.snd).Nodup) :
    ((mkDirIndex p r).2.insts.map Prod.snd).Nodup := by
  induction p with
  | nil =>
    cases hl : lookupPath r [] with
    | some j => rw [mkDirIndex_found hl]; exact h
    | none =>
      rw [mkDirIndex, hl]
      simp only [List.map_append]
      rw [List.nodup_append]
      refine ⟨h, by simp, ?_⟩
      intro q hq hq2
      simp at hq2
      subst hq2
      rw [List.mem_map] at hq
      obtain ⟨e, he, hee⟩ := hq
      have hmem2 : (e.1, e.2) ∈ r.insts := by simpa using he
      rw [hee] at hmem2
      exact lookupPath_none hl e.1 hmem2
  | cons a pp ih =>
    cases hl : lookupPath r (a :: pp) with
    | some j => rw [mkDirIndex_found hl]; exact h
    | none =>
      rw [mkDirIndex, hl]
      simp only [List.map_append]
      rw [List.nodup_append]
      refine ⟨ih, by simp, ?_⟩
      intro q hq hq2
      simp at hq2
      subst hq2
      rw [List.mem_map] at hq
      obtain ⟨e, he, hee⟩ := hq
      have hmem : (e.1, a :: pp) ∈ (mkDirIndex pp r).2.insts := by
        have hmem2 : (e.1, e.2) ∈ (mkDirIndex pp r).2.insts := by
          simpa using he
        rw [hee] at hmem2
        exact hmem2
      rcases mkDirIndex_paths pp r (a :: pp) e.1 hmem with hcase | hcase
      · obtain ⟨j, hj⟩ := hcase
        exact lookupPath_none hl j hj
      · have := hcase.length_le
        simp at this

/-- C8. DirIndex singleton invariant: at most one live `DirIndex`
instance exists per canonical absolute path — constructing an index for a
path whose instance is alive returns that same instance and leaves the
registry unchanged, and construction, refresh and prune all preserve the
one-instance-per-canonical-path property of the registry. -/
theorem c8_dirindex_singleton (r : Registry) (p : CPath)
    (hInv : (r.insts.map Prod.snd).Nodup) :
    (∀ i, lookupPath r p = some i → mkDirIndex p r = (i, r))
    ∧ ((mkDirIndex p r).2.insts.map Prod.snd).Nodup
    ∧ (∀ i, ((pruneDir r i).insts.map Prod.snd).Nodup)
    ∧ (∀ fs i, ((refreshEntryPaths r fs i).insts.map Prod.snd).Nodup) := by
  refine ⟨fun i h => mkDirIndex_found h, mkDirIndex_nodup p r hInv,
    fun i => ?_, fun fs i => ?_⟩
  · rw [pruneDir_insts]
    exact hInv
  · rw [refreshEntryPaths, foldl_pruneDir_insts]
    exact hInv

/-- Witness for C8: on a registry holding one instance for path `a` under
the root, looking it up again returns the same instance and all
operations keep the path map duplicate-free. -/
theorem c8_dirindex_singleton_witness :
    ((∀ i, lookupPath ⟨2, [(0, []), (1, ["a"])], [(0, 1)]⟩ ["a"] = some i →
      mkDirIndex ["a"] ⟨2, [(0, []), (1, ["a"])], [(0, 1)]⟩
        = (i, ⟨2, [(0, []), (1, ["a"])], [(0, 1)]⟩))
    ∧ ((mkDirIndex ["a"] ⟨2, [(0, []), (1, ["a"])], [(0, 1)]⟩).2.insts.map
        Prod.snd).Nodup
    ∧ (∀ i, ((pruneDir ⟨2, [(0, []), (1, ["a"])], [(0, 1)]⟩ i).insts.map
        Prod.snd).Nodup)
    ∧ (∀ fs i, ((refreshEntryPaths ⟨2, [(0, []), (1, ["a"])], [(0, 1)]⟩
        fs i).insts.map Prod.snd).Nodup))
    ∧ mkDirIndex ["a"] ⟨2, [(0, []), (1, ["a"])], [(0, 1)]⟩
        = (1, ⟨2, [(0, []), (1, ["a"])], [(0, 1)]⟩) :=
  ⟨c8_dirindex_singleton ⟨2, [(0, []), (1, ["a"])], [(0, 1)]⟩ ["a"]
      (by decide),
    (c8_dirindex_singleton ⟨2, [(0, []), (1, ["a"])], [(0, 1)]⟩ ["a"]
      (by decide)).1 1 (by decide)⟩

/-! ## Attribute assignment (source: `Artifact.__setattr__`) -/

/-- The attribute-access modes of an artifact handle. -/
inductive Mode where
  | readSync
  | readAsync
  | write
deriving DecidableEq, Repr

/-- A value being assigned to an attribute: an `Artifact` handle (becomes
a symlink), a `pathlib.Path` (accepted by the `write_path` writer, which
symlinks and keeps the target's extension), or any other value (rejected
by `write_path` with `TypeError` and accepted by `write_object_as_cbor`
under the ".cbor" extension). -/
inductive AttrValue where
  | artifactVal (target : String)
  | pathVal (target : String) (ext : String)
  | otherVal (v : PyVal)

/-- The in-memory side of an artifact handle: its access mode and the keys
of its instance `__dict__`. -/
structure ArtMem where
  mode : Mode
  dictKeys : List String
deriving DecidableEq, Repr

/-- The artifact's directory: entries by file name, with an opaque content
descriptor. -/
structure DirFs where
  entries : List (String × String)
deriving DecidableEq, Repr

/-- Source `Artifact.__setattr__`: in "read-sync" or "read-async" mode, or
when the key is already in the instance `__dict__`, set an ordinary
in-memory attribute; otherwise symlink an `Artifact` value, or hand the
value to the writers in priority order and move the produced file into the
directory. -/
def artifact_setattr (a : ArtMem) (key : String) (v : AttrValue)
    (fs : DirFs) : ArtMem × DirFs :=
  if a.mode = .readSync ∨ a.mode = .readAsync ∨ key ∈ a.dictKeys then
    ({ a with dictKeys :=
        if key ∈ a.dictKeys then a.dictKeys else a.dictKeys ++ [key] }, fs)
  else
    match v with
    | .artifactVal t => (a, ⟨fs.entries ++ [(key, "symlink to " ++ t)]⟩)
    | .pathVal t ext =>
      (a, ⟨fs.entries ++ [(key ++ ext, "symlink to " ++ t)]⟩)
    | .otherVal _ => (a, ⟨fs.entries ++ [(key ++ ".cbor", "cbor data")]⟩)

/-- C9. Attribute assignment in "read-sync" or "read-async" mode, or for
a key already present in the instance `__dict__`, sets an ordinary
in-memory attribute and leaves the artifact's directory entirely
unchanged; conversely, any assignment that changes the directory happened
in "write" mode on a key absent from the instance `__dict__`. -/
theorem c9_setattr_frame (a : ArtMem) (key : String) (v : AttrValue)
    (fs : DirFs)
    (h : a.mode = .readSync ∨ a.mode = .readAsync ∨ key ∈ a.dictKeys) :
    (artifact_setattr a key v fs).2 = fs
    ∧ key ∈ (artifact_setattr a key v fs).1.dictKeys
    ∧ ∀ (a2 : ArtMem) (fs2 : DirFs),
        (artifact_setattr a2 key v fs2).2 ≠ fs2 →
        a2.mode = .write ∧ key ∉ a2.dictKeys := by
  refine ⟨?_, ?_, ?_⟩
  · rw [artifact_setattr.eq_def, if_pos h]
  · rw [artifact_setattr.eq_def, if_pos h]
    by_cases hk : key ∈ a.dictKeys
    · simpa [hk] using hk
    · simp [hk]
  · intro a2 fs2 hne
    by_cases hc : a2.mode = .readSync ∨ a2.mode = .readAsync
        ∨ key ∈ a2.dictKeys
    · exact absurd (by rw [artifact_setattr.eq_def, if_pos hc]) hne
    · push_neg at hc
      obtain ⟨hc1, hc2, hc3⟩ := hc
      refine ⟨?_, hc3⟩
      cases hmode : a2.mode with
      | readSync => exact absurd hmode hc1
      | readAsync => exact absurd hmode hc2
      | write => rfl

/-- Witness for C9: assigning to `x` on a read-sync handle whose
directory holds one file leaves the directory unchanged. -/
theorem c9_setattr_frame_witness :
    (artifact_setattr ⟨.readSync, ["_path_", "_mode_"]⟩ "x"
        (.otherVal (.pint 3)) ⟨[("y.cbor", "cbor data")]⟩).2
      = ⟨[("y.cbor", "cbor data")]⟩
    ∧ "x" ∈ (artifact_setattr ⟨.readSync, ["_path_", "_mode_"]⟩ "x"
        (.otherVal (.pint 3)) ⟨[("y.cbor", "cbor data")]⟩).1.dictKeys
    ∧ ∀ (a2 : ArtMem) (fs2 : DirFs),
        (artifact_setattr a2 "x" (.otherVal (.pint 3)) fs2).2 ≠ fs2 →
        a2.mode = .write ∧ "x" ∉ a2.dictKeys :=
  c9_setattr_frame ⟨.readSync, ["_path_", "_mode_"]⟩ "x"
    (.otherVal (.pint 3)) ⟨[("y.cbor", "cbor data")]⟩ (by decide)

/-! ## DynamicArtifact length and iteration (source: `DynamicArtifact`) -/

/-- Source `DynamicArtifact.__len__`: the number of all entry stems the
directory index reports, hidden and private ones included. -/
def dynamic_len (entryNames : List String) : Nat := entryNames.length

/-- Source `DynamicArtifact.__iter__`: the entry stems in sorted order,
keeping only those whose first character is neither '.' nor '_'. -/
def dynamic_iter (entryNames : List String) : List String :=
  (entryNames.mergeSort (fun a b => a ≤ b)).filter
    (fun n => !(n.front == '.' || n.front == '_'))

/-- C10. For a `DynamicArtifact`, `len` counts every directory entry stem
including hidden and private ones, while iteration yields only stems not
beginning with '.' or '_'; hence for any directory containing the
metadata file (stem `_meta_`), `len` strictly exceeds the number of keys
iteration produces. -/
theorem c10_len_exceeds_iter (entryNames : List String)
    (hmeta : "_meta_" ∈ entryNames) :
    (dynamic_iter entryNames).length < dynamic_len entryNames
    ∧ dynamic_len entryNames = entryNames.length
    ∧ ∀ n ∈ dynamic_iter entryNames, n.front ≠ '.' ∧ n.front ≠ '_' := by
  have hperm := List.mergeSort_perm entryNames (fun a b => decide (a ≤ b))
  refine ⟨?_, rfl, ?_⟩
  · have hlt : ((entryNames.mergeSort (fun a b => a ≤ b)).filter
        (fun n => !(n.front == '.' || n.front == '_'))).length
        < (entryNames.mergeSort (fun a b => a ≤ b)).length := by
      refine List.length_filter_lt_length_iff_exists.mpr ?_
      refine ⟨"_meta_", ?_, by decide⟩
      exact hperm.mem_iff.mpr hmeta
    rw [dynamic_iter, dynamic_len]
    calc ((entryNames.mergeSort (fun a b => a ≤ b)).filter
          (fun n => !(n.front == '.' || n.front == '_'))).length
        < (entryNames.mergeSort (fun a b => a ≤ b)).length := hlt
      _ = entryNames.length := hperm.length_eq
  · intro n hn
    rw [dynamic_iter, List.mem_filter] at hn
    have := hn.2
    simp at this
    exact ⟨by simpa using this.1, by simpa using this.2⟩

/-- Witness for C10: a directory holding `_meta_.json`, a visible entry
and a hidden entry has length 3 but iterates only the visible stem. -/
theorem c10_len_exceeds_iter_witness :
    (dynamic_iter ["_meta_", "acc", ".hidden"]).length
        < dynamic_len ["_meta_", "acc", ".hidden"]
    ∧ dynamic_len ["_meta_", "acc", ".hidden"]
        = (["_meta_", "acc", ".hidden"] : List String).length
    ∧ ∀ n ∈ dynamic_iter ["_meta_", "acc", ".hidden"],
        n.front ≠ '.' ∧ n.front ≠ '_' :=
  c10_len_exceeds_iter ["_meta_", "acc", ".hidden"] (by decide)

end Artisan
